import Mathlib

/-!
# Verification development for `voter_matcher.cpp`

A shallow embedding of `VoterDatabase` (normalisation, bulk load, exact and
fuzzy matching) together with theorems about it.

Modelling conventions
* `std::string` is a sequence of bytes: `CString = List (Fin 256)`.
* `std::toupper` is the one of the "C" locale (the locale a C++ program starts
  in): it maps `'a'..'z'` to `'A'..'Z'` and returns every other value unchanged.
* `double` is modelled by `Double`: NaN, the two infinities, and the finite
  values as rationals.  The program only compares doubles and stores the
  constant `100.0`; it performs no floating point arithmetic.
* `size_t` indices are natural numbers (a vector never holds `2^64` elements).
* `std::shared_ptr<VoterRecord>` is modelled by the record it points to.
* The maps `nameIndex` and `addressIndex` are association lists with unique
  keys; `operator[]` followed by `push_back` is `Index.pushBack`.
* `records[idx]` with `idx` out of range is undefined behaviour: the functions
  that perform this access return `Option`, with `none` for that case.
* `rapidfuzz::fuzz::ratio` is an external library function: it is a parameter
  `ratio` of the functions that call it.
-/

namespace VoterMatcher

/-! ## Strings -/

/-- One `char` of a `std::string`, as its `unsigned char` value. -/
abbrev Byte := Fin 256

/-- A `std::string`. -/
abbrev CString := List Byte

/-- The bytes of an ASCII literal. -/
def lit (s : String) : CString := s.toList.map (fun c => Fin.ofNat c.toNat)

/-- The C library function `int toupper(int)` in the "C" locale. -/
def toupper (c : Int) : Int :=
  if 97 ≤ c ∧ c ≤ 122 then c - 32 else c

/-- Conversion of an `int` to `char` (what `push_back` does with the `int` that
the lambda returns): reduction modulo `2^8`. -/
def intToChar (i : Int) : Byte := ⟨(i % 256).toNat, by omega⟩

/-- The lambda `[](unsigned char c){ return std::toupper(c); }` followed by the
conversion to `char` on insertion. -/
def upperChar (c : Byte) : Byte := intToChar (toupper (c.val : Int))

/-- The function `VoterDatabase::normalizeString`: `std::transform` over the input with a
`back_inserter` into an initially empty `result`. -/
def normalizeString (input : CString) : CString :=
  input.foldl (fun result c => result ++ [upperChar c]) []

/-! ## Doubles -/

/-- A `double`: NaN, minus infinity, a finite value, plus infinity. -/
inductive Double where
  | nan
  | negInf
  | fin (q : ℚ)
  | posInf
  deriving DecidableEq

/-- The comparison `x <= y` of two doubles (false as soon as one is NaN). -/
def Double.le : Double → Double → Bool
  | .nan, _ => false
  | _, .nan => false
  | .negInf, _ => true
  | _, .posInf => true
  | .fin a, .fin b => decide (a ≤ b)
  | .fin _, .negInf => false
  | .posInf, .fin _ => false
  | .posInf, .negInf => false

/-- The comparison `x >= y` of two doubles. -/
def Double.ge (x y : Double) : Bool := Double.le y x

/-! ## Data model -/

/-- The struct `VoterRecord`. -/
structure VoterRecord where
  vsn : CString
  party : CString
  firstName : CString
  lastName : CString
  streetNumber : CString
  streetName : CString
  fullName : CString
  fullAddress : CString
  deriving DecidableEq

/-- The enum `SearchResult::MatchType`. -/
inductive MatchType where
  | EXACT
  | ADDRESS_ONLY
  | FUZZY_NAME
  | FUZZY_ADDRESS
  deriving DecidableEq

/-- The struct `SearchResult`. -/
structure SearchResult where
  type : MatchType
  score : Double
  record : VoterRecord
  deriving DecidableEq

/-- A map from strings to vectors of record indices (`nameIndex`,
`addressIndex`), as an association list. -/
abbrev Index := List (CString × List Nat)

/-- The call `m.find(key)`: the bucket stored under `key`, `none` for `m.end()`. -/
def Index.find : Index → CString → Option (List Nat)
  | [], _ => none
  | (k, v) :: rest, key => if k = key then some v else Index.find rest key

/-- The statement `m[key].push_back(idx)`: `operator[]` creates an empty bucket when the key
is absent, then `idx` is appended to the bucket. -/
def Index.pushBack : Index → CString → Nat → Index
  | [], key, idx => [(key, [idx])]
  | (k, v) :: rest, key, idx =>
    if k = key then (k, v ++ [idx]) :: rest else (k, v) :: Index.pushBack rest key idx

/-- The data members of `VoterDatabase`. -/
structure VoterDatabase where
  records : List VoterRecord
  nameIndex : Index
  addressIndex : Index
  deriving DecidableEq

/-- A default-constructed `VoterDatabase`: no record, two empty maps. -/
def VoterDatabase.empty : VoterDatabase :=
  { records := [], nameIndex := [], addressIndex := [] }

/-! ## Loading -/

/-- The strings that successive successful calls of
`std::getline(stream, x, delim)` extract from a stream holding `s`: the pieces
between delimiters; a call at end of stream that extracts nothing fails, so
there is no empty last piece. -/
def getlines (delim : Byte) : CString → List CString
  | [] => []
  | c :: rest =>
    if c = delim then [] :: getlines delim rest
    else
      match getlines delim rest with
      | [] => [[c]]
      | l :: ls => (c :: l) :: ls

/-- The byte `'\n'`. -/
def newline : Byte := 10

/-- The byte `','`. -/
def comma : Byte := 44

/-- The inner loop of `loadVoterData`: the fields of one line. -/
def splitFields (line : CString) : List CString := getlines comma line

/-- The rest of the body of the `while` loop of `loadVoterData`, for the
`fields` of one line: a line with at least six fields appends one record and
registers its index in both maps. -/
def ingestFields (db : VoterDatabase) (fields : List CString) : VoterDatabase :=
  if fields.length ≥ 6 then
    let vsn := fields.getD 0 []
    let party := fields.getD 1 []
    let firstName := normalizeString (fields.getD 2 [])
    let lastName := normalizeString (fields.getD 3 [])
    let streetNumber := normalizeString (fields.getD 4 [])
    let streetName := normalizeString (fields.getD 5 [])
    let fullName := firstName ++ lit " " ++ lastName
    let fullAddress := streetNumber ++ lit " " ++ streetName
    let record : VoterRecord :=
      { vsn := vsn, party := party, firstName := firstName, lastName := lastName,
        streetNumber := streetNumber, streetName := streetName,
        fullName := fullName, fullAddress := fullAddress }
    let idx := db.records.length
    { records := db.records ++ [record],
      nameIndex := Index.pushBack db.nameIndex record.fullName idx,
      addressIndex := Index.pushBack db.addressIndex record.fullAddress idx }
  else db

/-- The files that can be opened, with their contents. -/
abbrev FileSystem := CString → Option CString

/-- The lines that the `while` loop of `loadVoterData` reads: all lines of the
file but the first one, which the header `getline` consumes. -/
def dataLines (content : CString) : List CString := (getlines newline content).drop 1

/-- The function `VoterDatabase::loadVoterData`: the returned flag and the new state.  A file
that cannot be opened leaves the state alone; otherwise the three containers
are cleared and the data lines are ingested one after the other. -/
def loadVoterData (fs : FileSystem) (filepath : CString) (db : VoterDatabase) :
    Bool × VoterDatabase :=
  match fs filepath with
  | none => (false, db)
  | some content =>
    let db := { db with records := [] }
    let db := { db with nameIndex := [] }
    let db := { db with addressIndex := [] }
    (true, (dataLines content).foldl (fun d line => ingestFields d (splitFields line)) db)

/-! ## Matching -/

/-- The loop of `std::set_intersection` on two ranges, with a bound on the
number of iterations. -/
def set_intersection_loop : Nat → List Nat → List Nat → List Nat
  | 0, _, _ => []
  | _ + 1, [], _ => []
  | _ + 1, _ :: _, [] => []
  | fuel + 1, a :: as, b :: bs =>
    if a < b then set_intersection_loop fuel as (b :: bs)
    else if b < a then set_intersection_loop fuel (a :: as) bs
    else a :: set_intersection_loop fuel as bs

/-- The algorithm `std::set_intersection`: every iteration advances in at least one of the
two ranges, so the sum of their lengths bounds the number of iterations. -/
def set_intersection (xs ys : List Nat) : List Nat :=
  set_intersection_loop (xs.length + ys.length) xs ys

/-- The vector `matches` of `findExactMatches` (empty when one of the two keys
is absent). -/
def exactMatchIds (db : VoterDatabase) (fullName fullAddress : CString) : List Nat :=
  match Index.find db.nameIndex fullName, Index.find db.addressIndex fullAddress with
  | some nameIds, some addrIds => set_intersection nameIds addrIds
  | _, _ => []

/-- The loop `for (size_t idx : matches)` of `findExactMatches`; `none` when
`records[idx]` is out of range. -/
def collectExact (records : List VoterRecord) : List Nat → Option (List SearchResult)
  | [] => some []
  | idx :: rest =>
    match records[idx]? with
    | none => none
    | some record =>
      match collectExact records rest with
      | none => none
      | some results =>
        some ({ type := MatchType.EXACT, score := Double.fin 100, record := record } :: results)

/-- The function `VoterDatabase::findExactMatches`: the intersection of the
two buckets when both keys are present, and one `EXACT` result per index of
it. -/
def findExactMatches (db : VoterDatabase) (fullName fullAddress : CString) :
    Option (List SearchResult) :=
  match Index.find db.nameIndex fullName, Index.find db.addressIndex fullAddress with
  | some nameIds, some addrIds => collectExact db.records (set_intersection nameIds addrIds)
  | _, _ => some []

/-- The type of `rapidfuzz::fuzz::ratio` on two strings. -/
abbrev Scorer := CString → CString → Double

/-- The body of the loop of `findFuzzyMatches` for one record. -/
def fuzzyStep (ratio : Scorer) (fullName fullAddress : CString) (threshold : Double)
    (results : List SearchResult) (record : VoterRecord) : List SearchResult :=
  let nameScore := ratio fullName record.fullName
  let addressScore := ratio fullAddress record.fullAddress
  let results :=
    if Double.ge nameScore threshold then
      results ++ [{ type := MatchType.FUZZY_NAME, score := nameScore, record := record }]
    else results
  if Double.ge addressScore threshold then
    results ++ [{ type := MatchType.FUZZY_ADDRESS, score := addressScore, record := record }]
  else results

/-- The function `VoterDatabase::findFuzzyMatches`: the loop over all
records, from an empty `results`. -/
def findFuzzyMatches (ratio : Scorer) (db : VoterDatabase) (fullName fullAddress : CString)
    (threshold : Double) : List SearchResult :=
  db.records.foldl (fuzzyStep ratio fullName fullAddress threshold) []

/-- The key `fullName` (and likewise `fullAddress`) that `findMatches` builds
from two query fields. -/
def queryKey (a b : CString) : CString :=
  normalizeString a ++ lit " " ++ normalizeString b

/-- The function `VoterDatabase::findMatches`: the exact phase, and the fuzzy
phase when the exact phase returned nothing. -/
def findMatches (ratio : Scorer) (db : VoterDatabase)
    (firstName lastName streetNumber streetName : CString) (fuzzyThreshold : Double) :
    Option (List SearchResult) :=
  let fullName := queryKey firstName lastName
  let fullAddress := queryKey streetNumber streetName
  match findExactMatches db fullName fullAddress with
  | none => none
  | some exactMatches =>
    let results := [] ++ exactMatches
    if exactMatches.isEmpty then
      some (results ++ findFuzzyMatches ratio db fullName fullAddress fuzzyThreshold)
    else some results

/-- The states a `VoterDatabase` object can be in: the default-constructed
one, and the state after any call of `loadVoterData` on such a state. -/
inductive Reachable : VoterDatabase → Prop where
  | init : Reachable VoterDatabase.empty
  | load (fs : FileSystem) (filepath : CString) (db : VoterDatabase) :
      Reachable db → Reachable (loadVoterData fs filepath db).2

/-! ## Specification-side definitions -/

/-- The rows of a file as the load loop sees them: the fields of every data
line. -/
def fileRows (content : CString) : List (List CString) :=
  (dataLines content).map splitFields

/-- The record that the specification describes for a row of at least six
fields: fields 1 and 2 unchanged, fields 3 to 6 normalised, and the two joined
keys.  Rows with fewer fields are never ingested; for them the value is an empty
record. -/
def recordOfRow : List CString → VoterRecord
  | f1 :: f2 :: f3 :: f4 :: f5 :: f6 :: _ =>
    { vsn := f1, party := f2,
      firstName := normalizeString f3, lastName := normalizeString f4,
      streetNumber := normalizeString f5, streetName := normalizeString f6,
      fullName := normalizeString f3 ++ lit " " ++ normalizeString f4,
      fullAddress := normalizeString f5 ++ lit " " ++ normalizeString f6 }
  | _ =>
    { vsn := [], party := [], firstName := [], lastName := [], streetNumber := [],
      streetName := [], fullName := [], fullAddress := [] }

/-- The results that the specification describes for one record in the fuzzy
phase: a `FUZZY_NAME` result when the name score reaches the threshold,
followed by a `FUZZY_ADDRESS` result when the address score reaches it. -/
def fuzzyCandidates (ratio : Scorer) (fullName fullAddress : CString) (threshold : Double)
    (record : VoterRecord) : List SearchResult :=
  (if Double.ge (ratio fullName record.fullName) threshold then
    [{ type := MatchType.FUZZY_NAME, score := ratio fullName record.fullName, record := record }]
   else []) ++
  (if Double.ge (ratio fullAddress record.fullAddress) threshold then
    [{ type := MatchType.FUZZY_ADDRESS, score := ratio fullAddress record.fullAddress,
       record := record }]
   else [])

/-- The indices of the records of `recs` whose key `proj` equals `key`,
ascending. -/
def keyIds (proj : VoterRecord → CString) (key : CString) (recs : List VoterRecord) : List Nat :=
  (List.range recs.length).filter (fun i => decide ((recs[i]?).map proj = some key))

/-- What a map built by the load loop answers for `key`: the indices of the
records with that key, and no bucket when there is none. -/
def bucketOf (proj : VoterRecord → CString) (key : CString) (recs : List VoterRecord) :
    Option (List Nat) :=
  if keyIds proj key recs = [] then none else some (keyIds proj key recs)

/-- The invariant of the load loop: both maps answer every key with the
indices of the records that have it, and every record carries the keys joined
from its own fields. -/
structure Consistent (db : VoterDatabase) : Prop where
  name : ∀ key, Index.find db.nameIndex key = bucketOf VoterRecord.fullName key db.records
  address : ∀ key,
    Index.find db.addressIndex key = bucketOf VoterRecord.fullAddress key db.records
  joined : ∀ r ∈ db.records, r.fullName = r.firstName ++ lit " " ++ r.lastName ∧
    r.fullAddress = r.streetNumber ++ lit " " ++ r.streetName

/-- The relation between an index of `matches` and the result pushed for it. -/
def ExactFor (records : List VoterRecord) (idx : Nat) (res : SearchResult) : Prop :=
  res.type = MatchType.EXACT ∧ res.score = Double.fin 100 ∧ records[idx]? = some res.record

/-! ## A concrete scorer and concrete scenarios -/

/-- One row of the table of longest common subsequence lengths: the row of a
prefix extended by `a`, from the row `prev` of the prefix. -/
def lcsRow (a : Byte) : CString → List Nat → Nat → List Nat
  | b :: bs, diag :: up :: prev, left =>
    let v := if a = b then diag + 1 else max up left
    v :: lcsRow a bs (up :: prev) v
  | _, _, _ => []

/-- The length of a longest common subsequence of two strings. -/
def lcsLength (s1 s2 : CString) : Nat :=
  (s1.foldl (fun row a => 0 :: lcsRow a s2 row 0) (List.replicate (s2.length + 1) 0)).getLastD 0

/-- A scorer with the formula documented for `rapidfuzz::fuzz::ratio`, the
normalised Indel similarity: the fraction `200 * lcs / (len1 + len2)`, and `100` for two
empty strings.  Used for the concrete scenarios only. -/
def indelRatio : Scorer := fun s1 s2 =>
  if s1.length + s2.length = 0 then Double.fin 100
  else Double.fin (mkRat (200 * (lcsLength s1 s2 : Int)) (s1.length + s2.length))

/-- A scorer that only tells equal strings from different ones. -/
def equalityRatio : Scorer := fun s1 s2 =>
  if s1 = s2 then Double.fin 100 else Double.fin 0

/-- The file of scenarios A and B: a header line and two rows. -/
def scenarioFile : CString :=
  lit "vsn,party,first,last,number,street\n1,D,JOHN,SMITH,100,MAIN ST\n2,R,jane,doe,200,oak ave\n"

/-- The file of the reload of scenario D: a header line and one row. -/
def reloadFile : CString :=
  lit "vsn,party,first,last,number,street\n7,I,ALICE,WONG,55,ELM RD\n"

/-- A file whose second data line has only two fields. -/
def shortRowFile : CString :=
  lit "vsn,party,first,last,number,street\n1,D,JOHN,SMITH,100,MAIN ST\nbad,row\n2,R,jane,doe,200,oak ave\n"

/-- A file system with the three files above. -/
def scenarioFS : FileSystem := fun path =>
  if path = lit "voters.csv" then some scenarioFile
  else if path = lit "reload.csv" then some reloadFile
  else if path = lit "short.csv" then some shortRowFile
  else none

/-- The state after loading the scenario file into a new database. -/
def scenarioDb : VoterDatabase :=
  (loadVoterData scenarioFS (lit "voters.csv") VoterDatabase.empty).2

/-- The state after loading the reload file over the scenario state. -/
def reloadedDb : VoterDatabase :=
  (loadVoterData scenarioFS (lit "reload.csv") scenarioDb).2

/-- The second record of the scenario file. -/
def janeDoe : VoterRecord :=
  { vsn := lit "2", party := lit "R", firstName := lit "JANE", lastName := lit "DOE",
    streetNumber := lit "200", streetName := lit "OAK AVE",
    fullName := lit "JANE DOE", fullAddress := lit "200 OAK AVE" }

/-- The first record of the scenario file. -/
def johnSmith : VoterRecord :=
  { vsn := lit "1", party := lit "D", firstName := lit "JOHN", lastName := lit "SMITH",
    streetNumber := lit "100", streetName := lit "MAIN ST",
    fullName := lit "JOHN SMITH", fullAddress := lit "100 MAIN ST" }

/-- The keys of a map, in the order of the association list. -/
def Index.keys (m : Index) : List CString := m.map Prod.fst

/-- A file with one row whose first name holds a space. -/
def maryFile : CString :=
  lit "vsn,party,first,last,number,street\n9,D,Mary Ann,Lee,12,Oak St\n"

/-- A file system with the file above and nothing else. -/
def maryFS : FileSystem := fun path =>
  if path = lit "mary.csv" then some maryFile else none

/-- The state after loading `maryFile` into a new database. -/
def maryDb : VoterDatabase :=
  (loadVoterData maryFS (lit "mary.csv") VoterDatabase.empty).2

/-- The record of `maryFile`: first name `MARY ANN`, last name `LEE`. -/
def maryAnnLee : VoterRecord :=
  { vsn := lit "9", party := lit "D", firstName := lit "MARY ANN", lastName := lit "LEE",
    streetNumber := lit "12", streetName := lit "OAK ST",
    fullName := lit "MARY ANN LEE", fullAddress := lit "12 OAK ST" }

/-- A file system in which every path opens a file that holds a header line
and no row. -/
def headerOnlyFS : FileSystem := fun _ => some (lit "vsn,party,first,last,number,street\n")

/-! ## Theorems -/

theorem foldl_push_eq_map {α β : Type} (f : α → β) (l : List α) (init : List β) :
    l.foldl (fun result c => result ++ [f c]) init = init ++ l.map f := by
  induction l generalizing init with
  | nil => simp
  | cons a l ih => simp [ih]

theorem normalizeString_eq_map (s : CString) : normalizeString s = s.map upperChar := by
  simp [normalizeString, foldl_push_eq_map]

theorem upperChar_val (c : Byte) :
    (upperChar c).val = if 97 ≤ c.val ∧ c.val ≤ 122 then c.val - 32 else c.val := by
  have hc := c.isLt
  simp only [upperChar, intToChar, toupper]
  split_ifs with h1 h2 h2
  · omega
  · exfalso; omega
  · exfalso; omega
  · omega

theorem upperChar_idem (c : Byte) : upperChar (upperChar c) = upperChar c := by
  apply Fin.ext
  rw [upperChar_val (upperChar c), upperChar_val c]
  split_ifs <;> omega

theorem Index.find_pushBack (m : Index) (k key : CString) (n : Nat) :
    Index.find (Index.pushBack m k n) key =
      if k = key then some ((Index.find m key).getD [] ++ [n]) else Index.find m key := by
  induction m with
  | nil =>
    by_cases h : k = key <;> simp [Index.pushBack, Index.find, h]
  | cons p rest ih =>
    obtain ⟨k', v⟩ := p
    by_cases h1 : k' = k
    · subst h1
      by_cases h2 : k' = key <;> simp [Index.pushBack, Index.find, h2]
    · by_cases h2 : k' = key
      · subst h2
        have : ¬ k = k' := fun h => h1 h.symm
        simp [Index.pushBack, Index.find, h1, this]
      · simp [Index.pushBack, Index.find, h1, h2, ih]

theorem keyIds_append (proj : VoterRecord → CString) (key : CString)
    (recs : List VoterRecord) (r : VoterRecord) :
    keyIds proj key (recs ++ [r]) =
      keyIds proj key recs ++ (if proj r = key then [recs.length] else []) := by
  unfold keyIds
  rw [List.length_append, List.length_singleton, List.range_succ, List.filter_append]
  congr 1
  · apply List.filter_congr
    intro i hi
    rw [List.mem_range] at hi
    rw [List.getElem?_append_left hi]
  · by_cases h : proj r = key <;> simp [h]

theorem bucketOf_getD (proj : VoterRecord → CString) (key : CString) (recs : List VoterRecord) :
    (bucketOf proj key recs).getD [] = keyIds proj key recs := by
  unfold bucketOf
  split_ifs with h <;> simp [h]

theorem bucketOf_append (proj : VoterRecord → CString) (key : CString)
    (recs : List VoterRecord) (r : VoterRecord) :
    bucketOf proj key (recs ++ [r]) =
      if proj r = key then some ((bucketOf proj key recs).getD [] ++ [recs.length])
      else bucketOf proj key recs := by
  rw [bucketOf_getD]
  unfold bucketOf
  rw [keyIds_append]
  by_cases h : proj r = key <;> simp [h]

theorem consistent_empty : Consistent VoterDatabase.empty := by
  constructor <;> simp [VoterDatabase.empty, Index.find, bucketOf, keyIds]

theorem consistent_ingestFields {db : VoterDatabase} (h : Consistent db) (fields : List CString) :
    Consistent (ingestFields db fields) := by
  unfold ingestFields
  split_ifs with hlen
  · constructor
    · intro key
      simp only [Index.find_pushBack, bucketOf_append, h.name]
    · intro key
      simp only [Index.find_pushBack, bucketOf_append, h.address]
    · intro r hr
      rw [List.mem_append, List.mem_singleton] at hr
      rcases hr with hr | hr
      · exact h.joined r hr
      · subst hr
        exact ⟨rfl, rfl⟩
  · exact h

theorem consistent_foldl {db : VoterDatabase} (h : Consistent db) (lines : List CString) :
    Consistent (lines.foldl (fun d line => ingestFields d (splitFields line)) db) := by
  induction lines generalizing db with
  | nil => exact h
  | cons l ls ih => exact ih (consistent_ingestFields h _)

theorem Reachable.consistent {db : VoterDatabase} (h : Reachable db) : Consistent db := by
  induction h with
  | init => exact consistent_empty
  | load fs filepath db _ ih =>
    unfold loadVoterData
    cases fs filepath with
    | none => exact ih
    | some content => exact consistent_foldl consistent_empty _

theorem set_intersection_loop_eq_filter (fuel : Nat) (xs ys : List Nat)
    (hfuel : xs.length + ys.length ≤ fuel)
    (hx : xs.Pairwise (· < ·)) (hy : ys.Pairwise (· < ·)) :
    set_intersection_loop fuel xs ys = xs.filter (fun a => decide (a ∈ ys)) := by
  induction fuel generalizing xs ys with
  | zero =>
    have : xs = [] := List.length_eq_zero.mp (by omega)
    subst this
    simp [set_intersection_loop]
  | succ fuel ih =>
    cases xs with
    | nil => simp [set_intersection_loop]
    | cons a as =>
      cases ys with
      | nil => simp [set_intersection_loop]
      | cons b bs =>
        rw [List.pairwise_cons] at hx hy
        simp only [List.length_cons] at hfuel
        unfold set_intersection_loop
        split_ifs with h1 h2
        · -- a < b: `a` is in no position of the second range
          rw [ih as (b :: bs) (by simp only [List.length_cons]; omega) hx.2
            (List.pairwise_cons.mpr hy)]
          have hna : a ∉ b :: bs := by
            intro hmem
            rcases List.mem_cons.mp hmem with h | h
            · omega
            · have := hy.1 a h; omega
          rw [List.filter_cons, if_neg (by simpa using hna)]
        · -- b < a: `b` is in no position of the first range
          rw [ih (a :: as) bs (by simp only [List.length_cons]; omega)
            (List.pairwise_cons.mpr hx) hy.2]
          apply List.filter_congr
          intro x hx'
          have hxb : x ≠ b := by
            rcases List.mem_cons.mp hx' with h | h
            · omega
            · have := hx.1 x h; omega
          simp [hxb]
        · -- a = b
          have hab : a = b := by omega
          subst hab
          rw [ih as bs (by omega) hx.2 hy.2]
          simp only [List.filter_cons, List.mem_cons, true_or, decide_True, if_true]
          congr 1
          apply List.filter_congr
          intro x hx'
          have hxa : x ≠ a := by have := hx.1 x hx'; omega
          simp [hxa]

theorem set_intersection_eq_filter (xs ys : List Nat)
    (hx : xs.Pairwise (· < ·)) (hy : ys.Pairwise (· < ·)) :
    set_intersection xs ys = xs.filter (fun a => decide (a ∈ ys)) :=
  set_intersection_loop_eq_filter _ xs ys (le_refl _) hx hy

theorem keyIds_pairwise (proj : VoterRecord → CString) (key : CString) (recs : List VoterRecord) :
    (keyIds proj key recs).Pairwise (· < ·) :=
  List.Pairwise.filter _ (List.pairwise_lt_range _)

theorem mem_keyIds (proj : VoterRecord → CString) (key : CString) (recs : List VoterRecord)
    (i : Nat) : i ∈ keyIds proj key recs ↔ ∃ r, recs[i]? = some r ∧ proj r = key := by
  unfold keyIds
  rw [List.mem_filter, List.mem_range]
  constructor
  · rintro ⟨hi, h⟩
    refine ⟨recs[i], List.getElem?_eq_getElem hi, ?_⟩
    simpa [List.getElem?_eq_getElem hi] using h
  · rintro ⟨r, hr, hk⟩
    have hi : i < recs.length := by
      by_contra hcon
      rw [List.getElem?_eq_none (by omega)] at hr
      cases hr
    exact ⟨hi, by simp [hr, hk]⟩

/-- Under the load invariant, `matches` holds exactly the indices of the
records with both keys, ascending. -/
theorem exactMatchIds_of_consistent {db : VoterDatabase} (h : Consistent db)
    (fullName fullAddress : CString) :
    (exactMatchIds db fullName fullAddress).Pairwise (· < ·) ∧
    ∀ i, i ∈ exactMatchIds db fullName fullAddress ↔
      ∃ r, db.records[i]? = some r ∧ r.fullName = fullName ∧ r.fullAddress = fullAddress := by
  have key : exactMatchIds db fullName fullAddress =
      (keyIds VoterRecord.fullName fullName db.records).filter
        (fun a => decide (a ∈ keyIds VoterRecord.fullAddress fullAddress db.records)) := by
    unfold exactMatchIds
    rw [h.name, h.address]
    unfold bucketOf
    split_ifs with h1 h2 h2
    · simp [h1]
    · simp [h1]
    · simp [h2]
    · exact set_intersection_eq_filter _ _ (keyIds_pairwise _ _ _) (keyIds_pairwise _ _ _)
  rw [key]
  refine ⟨List.Pairwise.filter _ (keyIds_pairwise _ _ _), ?_⟩
  intro i
  rw [List.mem_filter, decide_eq_true_eq, mem_keyIds, mem_keyIds]
  constructor
  · rintro ⟨⟨r, hr, hn⟩, ⟨r', hr', ha⟩⟩
    rw [hr] at hr'
    cases hr'
    exact ⟨r, hr, hn, ha⟩
  · rintro ⟨r, hr, hn, ha⟩
    exact ⟨⟨r, hr, hn⟩, ⟨r, hr, ha⟩⟩

theorem findExactMatches_eq_collect (db : VoterDatabase) (fullName fullAddress : CString) :
    findExactMatches db fullName fullAddress =
      collectExact db.records (exactMatchIds db fullName fullAddress) := by
  unfold findExactMatches exactMatchIds
  split <;> simp_all [collectExact]

theorem collectExact_of_inBounds (records : List VoterRecord) (ids : List Nat)
    (h : ∀ i ∈ ids, i < records.length) :
    ∃ rs, collectExact records ids = some rs ∧ List.Forall₂ (ExactFor records) ids rs := by
  induction ids with
  | nil => exact ⟨[], rfl, List.Forall₂.nil⟩
  | cons i ids ih =>
    obtain ⟨rs, hrs, hall⟩ := ih (fun j hj => h j (List.mem_cons_of_mem _ hj))
    have hi : i < records.length := h i (List.mem_cons_self _ _)
    refine ⟨{ type := MatchType.EXACT, score := Double.fin 100, record := records[i] } :: rs,
      ?_, List.Forall₂.cons ⟨rfl, rfl, List.getElem?_eq_getElem hi⟩ hall⟩
    simp [collectExact, hrs, List.getElem?_eq_getElem hi]

theorem fuzzyStep_eq (ratio : Scorer) (fullName fullAddress : CString) (threshold : Double)
    (results : List SearchResult) (record : VoterRecord) :
    fuzzyStep ratio fullName fullAddress threshold results record =
      results ++ fuzzyCandidates ratio fullName fullAddress threshold record := by
  by_cases h1 : Double.ge (ratio fullName record.fullName) threshold = true <;>
    by_cases h2 : Double.ge (ratio fullAddress record.fullAddress) threshold = true <;>
    simp [fuzzyStep, fuzzyCandidates, h1, h2]

theorem foldl_fuzzyStep (ratio : Scorer) (fullName fullAddress : CString) (threshold : Double)
    (records : List VoterRecord) (init : List SearchResult) :
    records.foldl (fuzzyStep ratio fullName fullAddress threshold) init =
      init ++ records.flatMap (fuzzyCandidates ratio fullName fullAddress threshold) := by
  induction records generalizing init with
  | nil => simp
  | cons r rs ih => simp [ih, fuzzyStep_eq]

theorem findFuzzyMatches_eq_flatMap (ratio : Scorer) (db : VoterDatabase)
    (fullName fullAddress : CString) (threshold : Double) :
    findFuzzyMatches ratio db fullName fullAddress threshold =
      db.records.flatMap (fuzzyCandidates ratio fullName fullAddress threshold) := by
  simp [findFuzzyMatches, foldl_fuzzyStep]

theorem mem_fuzzyCandidates {ratio : Scorer} {fullName fullAddress : CString}
    {threshold : Double} {record : VoterRecord} {res : SearchResult}
    (h : res ∈ fuzzyCandidates ratio fullName fullAddress threshold record) :
    (res.type = MatchType.FUZZY_NAME ∧ res.score = ratio fullName record.fullName ∧
        Double.ge res.score threshold = true ∧ res.record = record) ∨
    (res.type = MatchType.FUZZY_ADDRESS ∧ res.score = ratio fullAddress record.fullAddress ∧
        Double.ge res.score threshold = true ∧ res.record = record) := by
  unfold fuzzyCandidates at h
  rw [List.mem_append] at h
  rcases h with h | h
  · left
    split_ifs at h with hge
    · rw [List.mem_singleton] at h
      subst h
      exact ⟨rfl, rfl, hge, rfl⟩
    · cases h
  · right
    split_ifs at h with hge
    · rw [List.mem_singleton] at h
      subst h
      exact ⟨rfl, rfl, hge, rfl⟩
    · cases h

/-- In a state kept by the load invariant the exact phase does not read out
of range, and its results are in step with the vector `matches`. -/
theorem findExactMatches_of_consistent {db : VoterDatabase} (h : Consistent db)
    (fullName fullAddress : CString) :
    ∃ rs, findExactMatches db fullName fullAddress = some rs ∧
      List.Forall₂ (ExactFor db.records) (exactMatchIds db fullName fullAddress) rs := by
  rw [findExactMatches_eq_collect]
  apply collectExact_of_inBounds
  intro i hi
  obtain ⟨r, hr, _⟩ := ((exactMatchIds_of_consistent h fullName fullAddress).2 i).mp hi
  by_contra hcon
  rw [List.getElem?_eq_none (by omega)] at hr
  cases hr

theorem findMatches_of_exact (ratio : Scorer) (db : VoterDatabase)
    (firstName lastName streetNumber streetName : CString) (threshold : Double)
    (ex : List SearchResult)
    (h : findExactMatches db (queryKey firstName lastName) (queryKey streetNumber streetName)
      = some ex) :
    findMatches ratio db firstName lastName streetNumber streetName threshold =
      some (if ex = [] then
        db.records.flatMap (fuzzyCandidates ratio (queryKey firstName lastName)
          (queryKey streetNumber streetName) threshold)
      else ex) := by
  unfold findMatches
  simp only [h, List.nil_append]
  cases ex with
  | nil => simp [findFuzzyMatches_eq_flatMap]
  | cons a as => simp

theorem forall2_getElem_of_mem {α β : Type} {R : α → β → Prop} {l₁ : List α} {l₂ : List β}
    (h : List.Forall₂ R l₁ l₂) {a : α} (ha : a ∈ l₁) :
    ∃ (k : Nat) (b : β), l₁[k]? = some a ∧ l₂[k]? = some b ∧ R a b := by
  induction h with
  | nil => cases ha
  | @cons x y xs ys hxy _ ih =>
    rcases List.mem_cons.mp ha with rfl | hmem
    · exact ⟨0, y, by simp, by simp, hxy⟩
    · obtain ⟨k, b, h1, h2, h3⟩ := ih hmem
      exact ⟨k + 1, b, by simpa using h1, by simpa using h2, h3⟩

theorem exactFor_type_of_forall2 {records : List VoterRecord} {ids : List Nat}
    {rs : List SearchResult} (h : List.Forall₂ (ExactFor records) ids rs) :
    ∀ res ∈ rs, res.type = MatchType.EXACT ∧ res.score = Double.fin 100 := by
  induction h with
  | nil => intro res hres; cases hres
  | cons hxy _ ih =>
    intro res hres
    rcases List.mem_cons.mp hres with rfl | hmem
    · exact ⟨hxy.1, hxy.2.1⟩
    · exact ih res hmem

theorem double_le_trans {a b c : Double} (hab : Double.le a b = true)
    (hbc : Double.le b c = true) : Double.le a c = true := by
  cases a <;> cases b <;> cases c <;> simp_all [Double.le]
  exact le_trans hab hbc

theorem flatMap_sublist_flatMap {α β : Type} (f g : α → List β) (l : List α)
    (h : ∀ x, (f x).Sublist (g x)) : (l.flatMap f).Sublist (l.flatMap g) := by
  induction l with
  | nil => simp
  | cons a l ih =>
    rw [List.flatMap_cons, List.flatMap_cons]
    exact List.Sublist.append (h a) ih

theorem fuzzyCandidates_sublist (ratio : Scorer) (fullName fullAddress : CString)
    (T T' : Double) (hT : Double.le T' T = true) (record : VoterRecord) :
    (fuzzyCandidates ratio fullName fullAddress T record).Sublist
      (fuzzyCandidates ratio fullName fullAddress T' record) := by
  unfold fuzzyCandidates
  apply List.Sublist.append
  · by_cases h : Double.ge (ratio fullName record.fullName) T = true
    · have h' : Double.ge (ratio fullName record.fullName) T' = true := double_le_trans hT h
      rw [if_pos h, if_pos h']
    · rw [if_neg h]
      exact List.nil_sublist _
  · by_cases h : Double.ge (ratio fullAddress record.fullAddress) T = true
    · have h' : Double.ge (ratio fullAddress record.fullAddress) T' = true :=
        double_le_trans hT h
      rw [if_pos h, if_pos h']
    · rw [if_neg h]
      exact List.nil_sublist _

theorem ingestFields_records (db : VoterDatabase) (fields : List CString) :
    (ingestFields db fields).records =
      db.records ++ (if 6 ≤ fields.length then [recordOfRow fields] else []) := by
  unfold ingestFields
  by_cases h : fields.length ≥ 6
  · rw [if_pos h, if_pos h]
    rcases fields with _ | ⟨f1, _ | ⟨f2, _ | ⟨f3, _ | ⟨f4, _ | ⟨f5, _ | ⟨f6, rest⟩⟩⟩⟩⟩⟩ <;>
      first
        | (exfalso; simp at h; done)
        | simp [recordOfRow]
  · rw [if_neg h, if_neg h]
    simp

/-- The load loop on an arbitrary sequence of rows appends one record per row
of at least six fields, in order. -/
theorem ingestRows_records (rows : List (List CString)) (db : VoterDatabase) :
    (rows.foldl ingestFields db).records =
      db.records ++ (rows.filter (fun row => decide (6 ≤ row.length))).map recordOfRow := by
  induction rows generalizing db with
  | nil => simp
  | cons row rows ih =>
    rw [List.foldl_cons, ih, ingestFields_records]
    by_cases h : 6 ≤ row.length <;> simp [h]

theorem loadVoterData_of_open (fs : FileSystem) (filepath : CString) (db : VoterDatabase)
    (content : CString) (hopen : fs filepath = some content) :
    loadVoterData fs filepath db =
      (true, (fileRows content).foldl ingestFields VoterDatabase.empty) := by
  unfold loadVoterData fileRows
  rw [hopen, List.foldl_map]
  rfl

theorem Reachable.consistent_of_eq {db db' : VoterDatabase} (h : Reachable db)
    (heq : db' = db) : Consistent db' := by
  rw [heq]
  exact h.consistent

/-! ## The claims -/

/-- C1 (exact-match soundness). In every reachable state, for the record `r`
at index `i` of the store and query fields that normalise to `r`'s stored
fields, `findMatches` returns, whatever the threshold and the scorer, a list
that holds at some position `k` the result `(EXACT, 100, r)`, and position `k`
of the vector `matches` of the exact phase is the index `i`. -/
theorem findMatches_exact_sound (ratio : Scorer) (db : VoterDatabase) (hdb : Reachable db)
    (i : Nat) (r : VoterRecord) (hr : db.records[i]? = some r)
    (firstName lastName streetNumber streetName : CString)
    (hf : normalizeString firstName = r.firstName)
    (hl : normalizeString lastName = r.lastName)
    (hn : normalizeString streetNumber = r.streetNumber)
    (hs : normalizeString streetName = r.streetName)
    (threshold : Double) :
    ∃ (rs : List SearchResult) (k : Nat),
      findMatches ratio db firstName lastName streetNumber streetName threshold = some rs ∧
      (exactMatchIds db r.fullName r.fullAddress)[k]? = some i ∧
      rs[k]? = some (SearchResult.mk MatchType.EXACT (Double.fin 100) r) := by
  have hc := hdb.consistent
  have hmem : r ∈ db.records := List.getElem?_mem hr
  obtain ⟨hname, haddr⟩ := hc.joined r hmem
  have hqn : queryKey firstName lastName = r.fullName := by
    rw [hname, queryKey, hf, hl]
  have hqa : queryKey streetNumber streetName = r.fullAddress := by
    rw [haddr, queryKey, hn, hs]
  obtain ⟨ex, hex, hall⟩ := findExactMatches_of_consistent hc r.fullName r.fullAddress
  have hi : i ∈ exactMatchIds db r.fullName r.fullAddress :=
    ((exactMatchIds_of_consistent hc _ _).2 i).mpr ⟨r, hr, rfl, rfl⟩
  obtain ⟨k, res, hk, hres, hR⟩ := forall2_getElem_of_mem hall hi
  have hne : ex ≠ [] := by
    intro h
    rw [h] at hres
    simp at hres
  refine ⟨ex, k, ?_, hk, ?_⟩
  · rw [findMatches_of_exact ratio db _ _ _ _ threshold ex (by rw [hqn, hqa]; exact hex),
      if_neg hne]
  · rw [hres]
    obtain ⟨h1, h2, h3⟩ := hR
    rw [hr] at h3
    cases res
    simp only at h1 h2 h3
    cases h3
    rw [h1, h2]

/-- Scenario A: after loading the two rows, the query
`("JOHN", "SMITH", "100", "Main St", 90)` returns exactly one result, the
`EXACT` result of the record at index 0; and the theorem of C1 at this
input. -/
theorem findMatches_exact_sound_scenarioA :
    scenarioDb.records[0]? = some johnSmith ∧
    findMatches indelRatio scenarioDb (lit "JOHN") (lit "SMITH") (lit "100") (lit "Main St")
      (Double.fin 90) = some [SearchResult.mk MatchType.EXACT (Double.fin 100) johnSmith] ∧
    exactMatchIds scenarioDb johnSmith.fullName johnSmith.fullAddress = [0] ∧
    ∃ (rs : List SearchResult) (k : Nat),
      findMatches indelRatio scenarioDb (lit "JOHN") (lit "SMITH") (lit "100") (lit "Main St")
        (Double.fin 90) = some rs ∧
      (exactMatchIds scenarioDb johnSmith.fullName johnSmith.fullAddress)[k]? = some 0 ∧
      rs[k]? = some (SearchResult.mk MatchType.EXACT (Double.fin 100) johnSmith) :=
  ⟨by decide, by decide, by decide,
    findMatches_exact_sound indelRatio scenarioDb
      (Reachable.load scenarioFS (lit "voters.csv") VoterDatabase.empty Reachable.init)
      0 johnSmith (by decide) (lit "JOHN") (lit "SMITH") (lit "100") (lit "Main St")
      (by decide) (by decide) (by decide) (by decide) (Double.fin 90)⟩

/-- C2 (exact suppresses fuzzy). In every reachable state `findMatches`
returns a list; when that list holds at least one `EXACT` entry it holds no
`FUZZY_NAME` and no `FUZZY_ADDRESS` entry, and it is the output of
`findExactMatches` for the query keys. -/
theorem findMatches_exact_suppresses_fuzzy (ratio : Scorer) (db : VoterDatabase)
    (hdb : Reachable db) (firstName lastName streetNumber streetName : CString)
    (threshold : Double) :
    ∃ rs, findMatches ratio db firstName lastName streetNumber streetName threshold = some rs ∧
      ((∃ res ∈ rs, res.type = MatchType.EXACT) →
        (∀ res ∈ rs, res.type ≠ MatchType.FUZZY_NAME ∧ res.type ≠ MatchType.FUZZY_ADDRESS) ∧
        findExactMatches db (queryKey firstName lastName) (queryKey streetNumber streetName)
          = some rs) := by
  obtain ⟨ex, hex, hall⟩ := findExactMatches_of_consistent hdb.consistent
    (queryKey firstName lastName) (queryKey streetNumber streetName)
  rw [findMatches_of_exact ratio db _ _ _ _ threshold ex hex]
  refine ⟨_, rfl, ?_⟩
  by_cases hnil : ex = []
  · rw [if_pos hnil]
    rintro ⟨res, hres, htype⟩
    exfalso
    obtain ⟨record, _, hcand⟩ := List.mem_flatMap.mp hres
    rcases mem_fuzzyCandidates hcand with h | h <;> rw [h.1] at htype <;> cases htype
  · rw [if_neg hnil]
    intro _
    refine ⟨?_, hex⟩
    intro res hres
    rw [(exactFor_type_of_forall2 hall res hres).1]
    exact ⟨by decide, by decide⟩

/-- Scenario A at threshold 0, which every score reaches: the result is the
one `EXACT` result of record 0 and holds no fuzzy result, although both records
would pass the fuzzy filter; and the theorem of C2 at this input. -/
theorem findMatches_exact_suppresses_fuzzy_scenarioA :
    findMatches indelRatio scenarioDb (lit "JOHN") (lit "SMITH") (lit "100") (lit "Main St")
      (Double.fin 0) = some [SearchResult.mk MatchType.EXACT (Double.fin 100) johnSmith] ∧
    (findFuzzyMatches indelRatio scenarioDb (lit "JOHN SMITH") (lit "100 MAIN ST")
      (Double.fin 0)).length = 4 ∧
    ∃ rs, findMatches indelRatio scenarioDb (lit "JOHN") (lit "SMITH") (lit "100")
        (lit "Main St") (Double.fin 0) = some rs ∧
      ((∃ res ∈ rs, res.type = MatchType.EXACT) →
        (∀ res ∈ rs, res.type ≠ MatchType.FUZZY_NAME ∧ res.type ≠ MatchType.FUZZY_ADDRESS) ∧
        findExactMatches scenarioDb (queryKey (lit "JOHN") (lit "SMITH"))
          (queryKey (lit "100") (lit "Main St")) = some rs) :=
  ⟨by decide, by decide,
    findMatches_exact_suppresses_fuzzy indelRatio scenarioDb
      (Reachable.load scenarioFS (lit "voters.csv") VoterDatabase.empty Reachable.init)
      (lit "JOHN") (lit "SMITH") (lit "100") (lit "Main St") (Double.fin 0)⟩

/-- C3 (the exact phase is exact and ordered). In every reachable state
`findExactMatches` returns a list `rs` that is in step with a list `ids` of
record indices: `ids` is strictly ascending, it holds exactly the indices of
the stored records whose `fullName` and `fullAddress` both equal the query
keys, and the result at each position has type `EXACT`, score `100` and the
record stored at the index of that position. -/
theorem findExactMatches_exact_ordered (db : VoterDatabase) (hdb : Reachable db)
    (fullName fullAddress : CString) :
    ∃ (ids : List Nat) (rs : List SearchResult),
      findExactMatches db fullName fullAddress = some rs ∧
      ids.Pairwise (· < ·) ∧
      (∀ i, i ∈ ids ↔
        ∃ r, db.records[i]? = some r ∧ r.fullName = fullName ∧ r.fullAddress = fullAddress) ∧
      List.Forall₂
        (fun i res => res.type = MatchType.EXACT ∧ res.score = Double.fin 100 ∧
          db.records[i]? = some res.record) ids rs := by
  have hc := hdb.consistent
  obtain ⟨rs, hrs, hall⟩ := findExactMatches_of_consistent hc fullName fullAddress
  obtain ⟨hsorted, hmem⟩ := exactMatchIds_of_consistent hc fullName fullAddress
  exact ⟨exactMatchIds db fullName fullAddress, rs, hrs, hsorted, hmem, hall⟩

/-- The exact phase on the scenario state, for the keys of its first record. -/
theorem findExactMatches_exact_ordered_scenario :
    findExactMatches scenarioDb (lit "JOHN SMITH") (lit "100 MAIN ST") =
      some [SearchResult.mk MatchType.EXACT (Double.fin 100) johnSmith] ∧
    ∃ (ids : List Nat) (rs : List SearchResult),
      findExactMatches scenarioDb (lit "JOHN SMITH") (lit "100 MAIN ST") = some rs ∧
      ids.Pairwise (· < ·) ∧
      (∀ i, i ∈ ids ↔
        ∃ r, scenarioDb.records[i]? = some r ∧ r.fullName = lit "JOHN SMITH" ∧
          r.fullAddress = lit "100 MAIN ST") ∧
      List.Forall₂
        (fun i res => res.type = MatchType.EXACT ∧ res.score = Double.fin 100 ∧
          scenarioDb.records[i]? = some res.record) ids rs :=
  ⟨by decide, findExactMatches_exact_ordered scenarioDb
    (Reachable.load scenarioFS (lit "voters.csv") VoterDatabase.empty Reachable.init)
    (lit "JOHN SMITH") (lit "100 MAIN ST")⟩

/-- C4 (fuzzy fallback, definition and order). Whenever the exact phase
yields no result for the query keys, `findMatches` returns the concatenation,
over the records in store order, of the `FUZZY_NAME` result of the record (when
its name score reaches the threshold) followed by its `FUZZY_ADDRESS` result
(when its address score reaches the threshold); nothing is sorted by score. -/
theorem findMatches_fuzzy_fallback (ratio : Scorer) (db : VoterDatabase)
    (firstName lastName streetNumber streetName : CString) (threshold : Double)
    (hexact : findExactMatches db (queryKey firstName lastName)
      (queryKey streetNumber streetName) = some []) :
    findMatches ratio db firstName lastName streetNumber streetName threshold =
      some (db.records.flatMap (fuzzyCandidates ratio (queryKey firstName lastName)
        (queryKey streetNumber streetName) threshold)) := by
  rw [findMatches_of_exact ratio db _ _ _ _ threshold [] hexact, if_pos rfl]

/-- Scenario B: the query `("JON", "SMITH", "100", "MAIN ST", 80)` has no
exact match; with the Indel ratio as scorer the result is the `FUZZY_NAME`
result of record 0, with a score of `1800/19` (between 80 and 100), followed by
its `FUZZY_ADDRESS` result. -/
theorem findMatches_fuzzy_fallback_scenarioB :
    findExactMatches scenarioDb (queryKey (lit "JON") (lit "SMITH"))
      (queryKey (lit "100") (lit "MAIN ST")) = some [] ∧
    findMatches indelRatio scenarioDb (lit "JON") (lit "SMITH") (lit "100") (lit "MAIN ST")
      (Double.fin 80) =
      some [SearchResult.mk MatchType.FUZZY_NAME (Double.fin (mkRat 1800 19)) johnSmith,
        SearchResult.mk MatchType.FUZZY_ADDRESS (Double.fin 100) johnSmith] ∧
    Double.ge (Double.fin (mkRat 1800 19)) (Double.fin 80) = true ∧
    Double.ge (Double.fin (mkRat 1800 19)) (Double.fin 100) = false ∧
    findMatches indelRatio scenarioDb (lit "JON") (lit "SMITH") (lit "100") (lit "MAIN ST")
      (Double.fin 80) =
      some (scenarioDb.records.flatMap (fuzzyCandidates indelRatio
        (queryKey (lit "JON") (lit "SMITH")) (queryKey (lit "100") (lit "MAIN ST"))
        (Double.fin 80))) :=
  ⟨by decide, by decide, by decide, by decide,
    findMatches_fuzzy_fallback indelRatio scenarioDb (lit "JON") (lit "SMITH") (lit "100")
      (lit "MAIN ST") (Double.fin 80) (by decide)⟩

/-- C5 (threshold monotonicity). In every reachable state, for thresholds
`T' <= T`, `findMatches` returns a list at both thresholds, and every result
returned at `T` is returned at `T'` (the list at `T` is a sublist of the list
at `T'`). -/
theorem findMatches_threshold_monotone (ratio : Scorer) (db : VoterDatabase)
    (hdb : Reachable db) (firstName lastName streetNumber streetName : CString)
    (T T' : Double) (hT : Double.le T' T = true) :
    ∃ (rs rs' : List SearchResult),
      findMatches ratio db firstName lastName streetNumber streetName T = some rs ∧
      findMatches ratio db firstName lastName streetNumber streetName T' = some rs' ∧
      rs.Sublist rs' ∧ ∀ res ∈ rs, res ∈ rs' := by
  obtain ⟨ex, hex, _⟩ := findExactMatches_of_consistent hdb.consistent
    (queryKey firstName lastName) (queryKey streetNumber streetName)
  rw [findMatches_of_exact ratio db _ _ _ _ T ex hex,
    findMatches_of_exact ratio db _ _ _ _ T' ex hex]
  have hsub : (if ex = [] then
        db.records.flatMap (fuzzyCandidates ratio (queryKey firstName lastName)
          (queryKey streetNumber streetName) T)
      else ex).Sublist
      (if ex = [] then
        db.records.flatMap (fuzzyCandidates ratio (queryKey firstName lastName)
          (queryKey streetNumber streetName) T')
      else ex) := by
    by_cases hnil : ex = []
    · rw [if_pos hnil, if_pos hnil]
      exact flatMap_sublist_flatMap _ _ _ (fuzzyCandidates_sublist ratio _ _ T T' hT)
    · rw [if_neg hnil, if_neg hnil]
  exact ⟨_, _, rfl, rfl, hsub, fun res hres => hsub.subset hres⟩

/-- Scenario B at thresholds 95 and 80: the name result of record 0 (score
`1800/19`) is returned at 80 only, its address result at both. -/
theorem findMatches_threshold_monotone_scenarioB :
    Double.le (Double.fin 80) (Double.fin 95) = true ∧
    findMatches indelRatio scenarioDb (lit "JON") (lit "SMITH") (lit "100") (lit "MAIN ST")
      (Double.fin 95) = some [SearchResult.mk MatchType.FUZZY_ADDRESS (Double.fin 100) johnSmith] ∧
    ∃ (rs rs' : List SearchResult),
      findMatches indelRatio scenarioDb (lit "JON") (lit "SMITH") (lit "100") (lit "MAIN ST")
        (Double.fin 95) = some rs ∧
      findMatches indelRatio scenarioDb (lit "JON") (lit "SMITH") (lit "100") (lit "MAIN ST")
        (Double.fin 80) = some rs' ∧
      rs.Sublist rs' ∧ ∀ res ∈ rs, res ∈ rs' :=
  ⟨by decide, by decide,
    findMatches_threshold_monotone indelRatio scenarioDb
      (Reachable.load scenarioFS (lit "voters.csv") VoterDatabase.empty Reachable.init)
      (lit "JON") (lit "SMITH") (lit "100") (lit "MAIN ST") (Double.fin 95) (Double.fin 80)
      (by decide)⟩

/-- C6 (score bounds). With a scorer whose values lie in `[0, 100]`, in every
reachable state and for every threshold (any double, also outside `[0, 100]`),
every result that `findMatches` returns has a score in `[0, 100]`, and every
`EXACT` result has score exactly `100`. -/
theorem findMatches_score_bounds (ratio : Scorer)
    (hratio : ∀ a b, Double.le (Double.fin 0) (ratio a b) = true ∧
      Double.le (ratio a b) (Double.fin 100) = true)
    (db : VoterDatabase) (hdb : Reachable db)
    (firstName lastName streetNumber streetName : CString) (threshold : Double) :
    ∃ rs, findMatches ratio db firstName lastName streetNumber streetName threshold = some rs ∧
      ∀ res ∈ rs, Double.le (Double.fin 0) res.score = true ∧
        Double.le res.score (Double.fin 100) = true ∧
        (res.type = MatchType.EXACT → res.score = Double.fin 100) := by
  obtain ⟨ex, hex, hall⟩ := findExactMatches_of_consistent hdb.consistent
    (queryKey firstName lastName) (queryKey streetNumber streetName)
  rw [findMatches_of_exact ratio db _ _ _ _ threshold ex hex]
  refine ⟨_, rfl, ?_⟩
  intro res hres
  by_cases hnil : ex = []
  · rw [if_pos hnil] at hres
    obtain ⟨record, _, hcand⟩ := List.mem_flatMap.mp hres
    rcases mem_fuzzyCandidates hcand with h | h
    · rw [h.2.1]
      refine ⟨(hratio _ _).1, (hratio _ _).2, ?_⟩
      intro htype
      rw [h.1] at htype
      cases htype
    · rw [h.2.1]
      refine ⟨(hratio _ _).1, (hratio _ _).2, ?_⟩
      intro htype
      rw [h.1] at htype
      cases htype
  · rw [if_neg hnil] at hres
    obtain ⟨_, hscore⟩ := exactFor_type_of_forall2 hall res hres
    rw [hscore]
    exact ⟨by decide, by decide, fun _ => rfl⟩

theorem equalityRatio_bounds (a b : CString) :
    Double.le (Double.fin 0) (equalityRatio a b) = true ∧
      Double.le (equalityRatio a b) (Double.fin 100) = true := by
  unfold equalityRatio
  split_ifs <;> decide

/-- The scenario state with the equality scorer and the threshold `-5`, which
every score reaches: both records yield both results, with scores 0 and 100. -/
theorem findMatches_score_bounds_scenario :
    findMatches equalityRatio scenarioDb (lit "JON") (lit "SMITH") (lit "100") (lit "MAIN ST")
      (Double.fin (-5)) =
      some [SearchResult.mk MatchType.FUZZY_NAME (Double.fin 0) johnSmith,
        SearchResult.mk MatchType.FUZZY_ADDRESS (Double.fin 100) johnSmith,
        SearchResult.mk MatchType.FUZZY_NAME (Double.fin 0) janeDoe,
        SearchResult.mk MatchType.FUZZY_ADDRESS (Double.fin 0) janeDoe] ∧
    ∃ rs, findMatches equalityRatio scenarioDb (lit "JON") (lit "SMITH") (lit "100")
        (lit "MAIN ST") (Double.fin (-5)) = some rs ∧
      ∀ res ∈ rs, Double.le (Double.fin 0) res.score = true ∧
        Double.le res.score (Double.fin 100) = true ∧
        (res.type = MatchType.EXACT → res.score = Double.fin 100) :=
  ⟨by decide,
    findMatches_score_bounds equalityRatio equalityRatio_bounds scenarioDb
      (Reachable.load scenarioFS (lit "voters.csv") VoterDatabase.empty Reachable.init)
      (lit "JON") (lit "SMITH") (lit "100") (lit "MAIN ST") (Double.fin (-5))⟩

/-- C7 (normalisation is idempotent). For every string, the empty one
included, normalising twice gives the same string as normalising once. -/
theorem normalizeString_idempotent (s : CString) :
    normalizeString (normalizeString s) = normalizeString s := by
  simp [normalizeString_eq_map, upperChar_idem]

/-- C8 (what the normaliser computes). `normalizeString s` has the length of
`s`; at every position it holds the byte of `s` at that position, lowered by 32
when that byte is one of `'a'..'z'` (codes 97 to 122, which gives the
corresponding letter of `'A'..'Z'`) and unchanged otherwise; the empty string
is mapped to the empty string. -/
theorem normalizeString_spec (s : CString) :
    (normalizeString s).length = s.length ∧
    (∀ i : Fin s.length, ∃ u : Byte, (normalizeString s)[i.val]? = some u ∧
      u.val = if 97 ≤ (s.get i).val ∧ (s.get i).val ≤ 122 then (s.get i).val - 32
              else (s.get i).val) ∧
    normalizeString [] = [] := by
  refine ⟨by simp [normalizeString_eq_map], ?_, rfl⟩
  intro i
  refine ⟨upperChar (s.get i), ?_, upperChar_val _⟩
  simp [normalizeString_eq_map]

/-- An example for C8: letters are raised, the digit, the spaces and the dot
are kept, nothing is trimmed. -/
theorem normalizeString_spec_example :
    normalizeString (lit " Main st. 7 ") = lit " MAIN ST. 7 " ∧
    ((normalizeString (lit " Main st. 7 ")).length = (lit " Main st. 7 ").length ∧
    (∀ i : Fin (lit " Main st. 7 ").length, ∃ u : Byte,
      (normalizeString (lit " Main st. 7 "))[i.val]? = some u ∧
      u.val = if 97 ≤ ((lit " Main st. 7 ").get i).val ∧ ((lit " Main st. 7 ").get i).val ≤ 122
              then ((lit " Main st. 7 ").get i).val - 32
              else ((lit " Main st. 7 ").get i).val) ∧
    normalizeString [] = []) :=
  ⟨by decide, normalizeString_spec (lit " Main st. 7 ")⟩

/-- C9 (ingestion result). When the file can be opened, `loadVoterData`
returns `true` and leaves as record store exactly the records of the rows of
the file that have at least six fields, in file order, each built as the
specification says (`recordOfRow`); a row with fewer fields adds nothing, so
the index of a record in the store is its rank among the ingested rows. Both
maps list every record under its own key at that index. -/
theorem loadVoterData_records (fs : FileSystem) (filepath : CString) (db : VoterDatabase)
    (content : CString) (hopen : fs filepath = some content) :
    (loadVoterData fs filepath db).1 = true ∧
    (loadVoterData fs filepath db).2.records =
      ((fileRows content).filter (fun row => decide (6 ≤ row.length))).map recordOfRow ∧
    (∀ key i, i ∈ (Index.find (loadVoterData fs filepath db).2.nameIndex key).getD [] ↔
      ∃ r, (loadVoterData fs filepath db).2.records[i]? = some r ∧ r.fullName = key) ∧
    (∀ key i, i ∈ (Index.find (loadVoterData fs filepath db).2.addressIndex key).getD [] ↔
      ∃ r, (loadVoterData fs filepath db).2.records[i]? = some r ∧ r.fullAddress = key) := by
  have hc : Consistent (loadVoterData fs filepath db).2 :=
    (Reachable.load fs filepath VoterDatabase.empty Reachable.init).consistent_of_eq
      (by rw [loadVoterData_of_open fs filepath db content hopen,
        loadVoterData_of_open fs filepath VoterDatabase.empty content hopen])
  refine ⟨?_, ?_, ?_, ?_⟩
  · rw [loadVoterData_of_open fs filepath db content hopen]
  · rw [loadVoterData_of_open fs filepath db content hopen]
    simp [ingestRows_records, VoterDatabase.empty]
  · intro key i
    rw [hc.name, bucketOf_getD, mem_keyIds]
  · intro key i
    rw [hc.address, bucketOf_getD, mem_keyIds]

/-- A file with a row of two fields between two full rows: the short row is
skipped and takes no index, so the third row is the record at index 1. -/
theorem loadVoterData_records_shortRow :
    scenarioFS (lit "short.csv") = some shortRowFile ∧
    (fileRows shortRowFile).map List.length = [6, 2, 6] ∧
    (loadVoterData scenarioFS (lit "short.csv") scenarioDb).2.records = [johnSmith, janeDoe] ∧
    (loadVoterData scenarioFS (lit "short.csv") scenarioDb).2.nameIndex =
      [(lit "JOHN SMITH", [0]), (lit "JANE DOE", [1])] ∧
    ((loadVoterData scenarioFS (lit "short.csv") scenarioDb).1 = true ∧
    (loadVoterData scenarioFS (lit "short.csv") scenarioDb).2.records =
      ((fileRows shortRowFile).filter (fun row => decide (6 ≤ row.length))).map recordOfRow ∧
    (∀ key i,
      i ∈ (Index.find (loadVoterData scenarioFS (lit "short.csv") scenarioDb).2.nameIndex
        key).getD [] ↔
      ∃ r, (loadVoterData scenarioFS (lit "short.csv") scenarioDb).2.records[i]? = some r ∧
        r.fullName = key) ∧
    (∀ key i,
      i ∈ (Index.find (loadVoterData scenarioFS (lit "short.csv") scenarioDb).2.addressIndex
        key).getD [] ↔
      ∃ r, (loadVoterData scenarioFS (lit "short.csv") scenarioDb).2.records[i]? = some r ∧
        r.fullAddress = key)) :=
  ⟨by decide, by decide, by decide, by decide,
    loadVoterData_records scenarioFS (lit "short.csv") scenarioDb shortRowFile (by decide)⟩

/-- C10 (a reload replaces the prior state). When the file can be opened, the
state after `loadVoterData` (store, name index and address index) is the state
after loading the same file into a new, empty database, whatever the state
before the call; hence every query gets the same answer as on that freshly
loaded database. -/
theorem loadVoterData_replaces_state (fs : FileSystem) (filepath : CString)
    (db : VoterDatabase) (content : CString) (hopen : fs filepath = some content) :
    (loadVoterData fs filepath db).2 = (loadVoterData fs filepath VoterDatabase.empty).2 ∧
    ∀ (ratio : Scorer) (firstName lastName streetNumber streetName : CString)
      (threshold : Double),
      findMatches ratio (loadVoterData fs filepath db).2 firstName lastName streetNumber
        streetName threshold =
      findMatches ratio (loadVoterData fs filepath VoterDatabase.empty).2 firstName lastName
        streetNumber streetName threshold := by
  have heq : (loadVoterData fs filepath db).2 =
      (loadVoterData fs filepath VoterDatabase.empty).2 := by
    rw [loadVoterData_of_open fs filepath db content hopen,
      loadVoterData_of_open fs filepath VoterDatabase.empty content hopen]
  refine ⟨heq, ?_⟩
  intro ratio firstName lastName streetNumber streetName threshold
  rw [heq]

/-- Scenario D: the reload file is loaded over the scenario state. The maps
hold the new record only, and the query for the values of the old record 0
returns the empty list at threshold 90. -/
theorem loadVoterData_replaces_state_scenarioD :
    scenarioFS (lit "reload.csv") = some reloadFile ∧
    reloadedDb.records.length = 1 ∧
    reloadedDb.nameIndex = [(lit "ALICE WONG", [0])] ∧
    reloadedDb.addressIndex = [(lit "55 ELM RD", [0])] ∧
    findMatches indelRatio reloadedDb (lit "JOHN") (lit "SMITH") (lit "100") (lit "MAIN ST")
      (Double.fin 90) = some [] ∧
    ((loadVoterData scenarioFS (lit "reload.csv") scenarioDb).2 =
      (loadVoterData scenarioFS (lit "reload.csv") VoterDatabase.empty).2 ∧
    ∀ (ratio : Scorer) (firstName lastName streetNumber streetName : CString)
      (threshold : Double),
      findMatches ratio (loadVoterData scenarioFS (lit "reload.csv") scenarioDb).2 firstName
        lastName streetNumber streetName threshold =
      findMatches ratio (loadVoterData scenarioFS (lit "reload.csv") VoterDatabase.empty).2
        firstName lastName streetNumber streetName threshold) :=
  ⟨by decide, by decide, by decide, by decide, by decide,
    loadVoterData_replaces_state scenarioFS (lit "reload.csv") scenarioDb reloadFile
      (by decide)⟩

/-! ## Further lemmas: absent keys, key uniqueness, buckets -/

theorem exactMatchIds_eq_nil {db : VoterDatabase} (h : Consistent db)
    (fullName fullAddress : CString)
    (hno : ¬ ∃ r ∈ db.records, r.fullName = fullName ∧ r.fullAddress = fullAddress) :
    exactMatchIds db fullName fullAddress = [] := by
  rw [List.eq_nil_iff_forall_not_mem]
  intro i hi
  obtain ⟨r, hr, hn, ha⟩ := ((exactMatchIds_of_consistent h fullName fullAddress).2 i).mp hi
  exact hno ⟨r, List.getElem?_mem hr, hn, ha⟩

theorem findExactMatches_eq_nil {db : VoterDatabase} (h : Consistent db)
    (fullName fullAddress : CString)
    (hno : ¬ ∃ r ∈ db.records, r.fullName = fullName ∧ r.fullAddress = fullAddress) :
    findExactMatches db fullName fullAddress = some [] := by
  rw [findExactMatches_eq_collect, exactMatchIds_eq_nil h fullName fullAddress hno]
  rfl

theorem queryKey_normalize (a b : CString) :
    queryKey (normalizeString a) (normalizeString b) = queryKey a b := by
  have hidem : ∀ x : CString, normalizeString (normalizeString x) = normalizeString x := by
    intro x
    simp [normalizeString_eq_map, upperChar_idem]
  unfold queryKey
  rw [hidem a, hidem b]

theorem findMatches_congr_keys (ratio : Scorer) (db : VoterDatabase)
    (f l n s f' l' n' s' : CString) (threshold : Double)
    (hname : queryKey f l = queryKey f' l') (haddr : queryKey n s = queryKey n' s') :
    findMatches ratio db f l n s threshold = findMatches ratio db f' l' n' s' threshold := by
  unfold findMatches
  rw [hname, haddr]

theorem Index.keys_pushBack (m : Index) (key : CString) (idx : Nat) :
    Index.keys (Index.pushBack m key idx) =
      if key ∈ Index.keys m then Index.keys m else Index.keys m ++ [key] := by
  induction m with
  | nil => simp [Index.keys, Index.pushBack]
  | cons p rest ih =>
    obtain ⟨k, v⟩ := p
    by_cases hk : k = key
    · subst hk
      simp [Index.keys, Index.pushBack]
    · have hk' : ¬ key = k := fun h => hk h.symm
      simp only [Index.keys] at ih
      simp only [Index.keys, Index.pushBack, if_neg hk, List.map_cons, List.mem_cons, hk',
        false_or, ih]
      split_ifs <;> simp

theorem Index.nodup_keys_pushBack (m : Index) (key : CString) (idx : Nat)
    (h : (Index.keys m).Nodup) : (Index.keys (Index.pushBack m key idx)).Nodup := by
  rw [Index.keys_pushBack]
  split_ifs with hmem
  · exact h
  · rw [List.nodup_append]
    refine ⟨h, List.nodup_singleton _, ?_⟩
    intro a ha hb
    rw [List.mem_singleton] at hb
    subst hb
    exact hmem ha

theorem Index.find_eq_some_iff_mem (m : Index) (h : (Index.keys m).Nodup)
    (key : CString) (v : List Nat) : Index.find m key = some v ↔ (key, v) ∈ m := by
  induction m with
  | nil => simp [Index.find]
  | cons p rest ih =>
    obtain ⟨k, w⟩ := p
    simp only [Index.keys, List.map_cons, List.nodup_cons] at h
    by_cases hk : k = key
    · subst hk
      simp only [Index.find, if_true, List.mem_cons, Prod.mk.injEq, true_and, Option.some.injEq]
      constructor
      · intro hv; exact Or.inl hv.symm
      · rintro (hv | hmem)
        · exact hv.symm
        · exact absurd (List.mem_map_of_mem Prod.fst hmem) h.1
    · have hk' : ¬ key = k := fun h' => hk h'.symm
      simp only [Index.find, if_neg hk, List.mem_cons, Prod.mk.injEq, hk', false_and, false_or]
      exact ih h.2

/-- Both maps of a state have pairwise different keys. -/
theorem nodup_keys_ingestFields (db : VoterDatabase) (fields : List CString)
    (h : (Index.keys db.nameIndex).Nodup ∧ (Index.keys db.addressIndex).Nodup) :
    (Index.keys (ingestFields db fields).nameIndex).Nodup ∧
      (Index.keys (ingestFields db fields).addressIndex).Nodup := by
  unfold ingestFields
  split_ifs
  · exact ⟨Index.nodup_keys_pushBack _ _ _ h.1, Index.nodup_keys_pushBack _ _ _ h.2⟩
  · exact h

theorem nodup_keys_foldl (lines : List CString) (db : VoterDatabase)
    (h : (Index.keys db.nameIndex).Nodup ∧ (Index.keys db.addressIndex).Nodup) :
    (Index.keys (lines.foldl (fun d line => ingestFields d (splitFields line)) db).nameIndex).Nodup ∧
      (Index.keys
        (lines.foldl (fun d line => ingestFields d (splitFields line)) db).addressIndex).Nodup := by
  induction lines generalizing db with
  | nil => exact h
  | cons l ls ih => exact ih _ (nodup_keys_ingestFields db _ h)

theorem Reachable.nodup_keys {db : VoterDatabase} (h : Reachable db) :
    (Index.keys db.nameIndex).Nodup ∧ (Index.keys db.addressIndex).Nodup := by
  induction h with
  | init => simp [VoterDatabase.empty, Index.keys]
  | load fs filepath db _ ih =>
    unfold loadVoterData
    cases fs filepath with
    | none => exact ih
    | some content => exact nodup_keys_foldl _ _ (by simp [Index.keys])

/-- In a reachable state, an entry `(key, v)` of the name index holds exactly
the indices of the records whose `fullName` is `key`. -/
theorem Reachable.name_bucket {db : VoterDatabase} (h : Reachable db) (key : CString)
    (v : List Nat) (hmem : (key, v) ∈ db.nameIndex) :
    v = keyIds VoterRecord.fullName key db.records := by
  have hfind := (Index.find_eq_some_iff_mem _ h.nodup_keys.1 key v).mpr hmem
  rw [h.consistent.name, bucketOf] at hfind
  split_ifs at hfind
  exact (Option.some.inj hfind).symm

/-- In a reachable state, an entry `(key, v)` of the address index holds
exactly the indices of the records whose `fullAddress` is `key`. -/
theorem Reachable.address_bucket {db : VoterDatabase} (h : Reachable db) (key : CString)
    (v : List Nat) (hmem : (key, v) ∈ db.addressIndex) :
    v = keyIds VoterRecord.fullAddress key db.records := by
  have hfind := (Index.find_eq_some_iff_mem _ h.nodup_keys.2 key v).mpr hmem
  rw [h.consistent.address, bucketOf] at hfind
  split_ifs at hfind
  exact (Option.some.inj hfind).symm

theorem bucketOf_of_record (proj : VoterRecord → CString) (recs : List VoterRecord)
    (i : Nat) (r : VoterRecord) (hr : recs[i]? = some r) :
    ∃ v, bucketOf proj (proj r) recs = some v ∧ i ∈ v := by
  have hi : i ∈ keyIds proj (proj r) recs := (mem_keyIds proj (proj r) recs i).mpr ⟨r, hr, rfl⟩
  refine ⟨keyIds proj (proj r) recs, ?_, hi⟩
  unfold bucketOf
  rw [if_neg]
  intro hnil
  rw [hnil] at hi
  cases hi

/-! ## The claims on thresholds, result types and invariants -/

/-- C11, as stated, fails: in the state of scenario A the query
`("JOHN", "SMITH", "100", "Main St")` at threshold `0` has an exact match, so
the fuzzy phase does not run and the stored record of Jane Doe is in no result,
although the scorer is bounded and the threshold is `<= 0`. -/
theorem findMatches_nonpositive_threshold_counterexample :
    Double.le (Double.fin 0) (Double.fin 0) = true ∧
    janeDoe ∈ scenarioDb.records ∧
    findMatches equalityRatio scenarioDb (lit "JOHN") (lit "SMITH") (lit "100") (lit "Main St")
      (Double.fin 0) = some [SearchResult.mk MatchType.EXACT (Double.fin 100) johnSmith] ∧
    ¬ ∃ rs, findMatches equalityRatio scenarioDb (lit "JOHN") (lit "SMITH") (lit "100")
        (lit "Main St") (Double.fin 0) = some rs ∧ ∃ res ∈ rs, res.record = janeDoe := by
  have heval : findMatches equalityRatio scenarioDb (lit "JOHN") (lit "SMITH") (lit "100")
      (lit "Main St") (Double.fin 0) =
      some [SearchResult.mk MatchType.EXACT (Double.fin 100) johnSmith] := by decide
  refine ⟨by decide, by decide, heval, ?_⟩
  rintro ⟨rs, hrs, res, hres, hrec⟩
  rw [heval] at hrs
  cases hrs
  rw [List.mem_singleton] at hres
  subst hres
  revert hrec
  decide

/-- C11, amended. With a scorer whose values are at least `0`, in every
reachable state, for every threshold `<= 0` and every query for which no stored
record has both the query's full name and the query's full address (the exact
phase yields nothing), `findMatches` returns a list that holds, for every
record of the store, its `FUZZY_NAME` result and its `FUZZY_ADDRESS` result. -/
theorem findMatches_nonpositive_threshold (ratio : Scorer)
    (hratio : ∀ a b, Double.le (Double.fin 0) (ratio a b) = true)
    (db : VoterDatabase) (hdb : Reachable db)
    (firstName lastName streetNumber streetName : CString)
    (threshold : Double) (hT : Double.le threshold (Double.fin 0) = true)
    (hno : ¬ ∃ r ∈ db.records, r.fullName = queryKey firstName lastName ∧
      r.fullAddress = queryKey streetNumber streetName) :
    ∃ rs, findMatches ratio db firstName lastName streetNumber streetName threshold = some rs ∧
      ∀ r ∈ db.records,
        SearchResult.mk MatchType.FUZZY_NAME (ratio (queryKey firstName lastName) r.fullName) r
          ∈ rs ∧
        SearchResult.mk MatchType.FUZZY_ADDRESS
          (ratio (queryKey streetNumber streetName) r.fullAddress) r ∈ rs := by
  have hex := findExactMatches_eq_nil hdb.consistent _ _ hno
  rw [findMatches_of_exact ratio db _ _ _ _ threshold [] hex, if_pos rfl]
  refine ⟨_, rfl, ?_⟩
  intro r hr
  have h1 : Double.ge (ratio (queryKey firstName lastName) r.fullName) threshold = true :=
    double_le_trans hT (hratio _ _)
  have h2 : Double.ge (ratio (queryKey streetNumber streetName) r.fullAddress) threshold
      = true := double_le_trans hT (hratio _ _)
  constructor
  · exact List.mem_flatMap.mpr ⟨r, hr, by simp [fuzzyCandidates, h1]⟩
  · exact List.mem_flatMap.mpr ⟨r, hr, by simp [fuzzyCandidates, h2]⟩

theorem equalityRatio_nonneg (a b : CString) :
    Double.le (Double.fin 0) (equalityRatio a b) = true :=
  (equalityRatio_bounds a b).1

/-- The amended C11 on the scenario state: the query
`("JON", "SMITH", "100", "MAIN ST")` has no exact match, and at threshold `-1`
both records get both results. -/
theorem findMatches_nonpositive_threshold_scenario :
    Double.le (Double.fin (-1)) (Double.fin 0) = true ∧
    (¬ ∃ r ∈ scenarioDb.records, r.fullName = queryKey (lit "JON") (lit "SMITH") ∧
      r.fullAddress = queryKey (lit "100") (lit "MAIN ST")) ∧
    findMatches equalityRatio scenarioDb (lit "JON") (lit "SMITH") (lit "100") (lit "MAIN ST")
      (Double.fin (-1)) =
      some [SearchResult.mk MatchType.FUZZY_NAME (Double.fin 0) johnSmith,
        SearchResult.mk MatchType.FUZZY_ADDRESS (Double.fin 100) johnSmith,
        SearchResult.mk MatchType.FUZZY_NAME (Double.fin 0) janeDoe,
        SearchResult.mk MatchType.FUZZY_ADDRESS (Double.fin 0) janeDoe] ∧
    ∃ rs, findMatches equalityRatio scenarioDb (lit "JON") (lit "SMITH") (lit "100")
        (lit "MAIN ST") (Double.fin (-1)) = some rs ∧
      ∀ r ∈ scenarioDb.records,
        SearchResult.mk MatchType.FUZZY_NAME
          (equalityRatio (queryKey (lit "JON") (lit "SMITH")) r.fullName) r ∈ rs ∧
        SearchResult.mk MatchType.FUZZY_ADDRESS
          (equalityRatio (queryKey (lit "100") (lit "MAIN ST")) r.fullAddress) r ∈ rs :=
  ⟨by decide, by decide, by decide,
    findMatches_nonpositive_threshold equalityRatio equalityRatio_nonneg scenarioDb
      (Reachable.load scenarioFS (lit "voters.csv") VoterDatabase.empty Reachable.init)
      (lit "JON") (lit "SMITH") (lit "100") (lit "MAIN ST") (Double.fin (-1)) (by decide)
      (by decide)⟩

/-- C12 (a threshold above 100 matches nothing). With a scorer whose values
never exceed `100`, in every reachable state, for every threshold that is not
`<= 100` (so `101` in particular) and every query for which no stored record
has both the query's full name and the query's full address, `findMatches`
returns the empty list. -/
theorem findMatches_threshold_above_100 (ratio : Scorer)
    (hratio : ∀ a b, Double.le (ratio a b) (Double.fin 100) = true)
    (db : VoterDatabase) (hdb : Reachable db)
    (firstName lastName streetNumber streetName : CString)
    (threshold : Double) (hT : Double.le threshold (Double.fin 100) = false)
    (hno : ¬ ∃ r ∈ db.records, r.fullName = queryKey firstName lastName ∧
      r.fullAddress = queryKey streetNumber streetName) :
    findMatches ratio db firstName lastName streetNumber streetName threshold = some [] := by
  have hex := findExactMatches_eq_nil hdb.consistent _ _ hno
  rw [findMatches_of_exact ratio db _ _ _ _ threshold [] hex, if_pos rfl]
  congr 1
  rw [List.eq_nil_iff_forall_not_mem]
  intro res hres
  obtain ⟨record, _, hcand⟩ := List.mem_flatMap.mp hres
  have hle : Double.le threshold (Double.fin 100) = true := by
    rcases mem_fuzzyCandidates hcand with h | h
    · have hge := h.2.2.1
      rw [h.2.1] at hge
      exact double_le_trans hge (hratio _ _)
    · have hge := h.2.2.1
      rw [h.2.1] at hge
      exact double_le_trans hge (hratio _ _)
  rw [hT] at hle
  cases hle

theorem equalityRatio_le_100 (a b : CString) :
    Double.le (equalityRatio a b) (Double.fin 100) = true :=
  (equalityRatio_bounds a b).2

/-- Scenario C on the scenario state: the query `("JON", "SMITH", "100",
"MAIN ST", 101)` returns the empty list, with the equality scorer (through the
theorem of C12) and with the Indel ratio (by evaluation). -/
theorem findMatches_threshold_above_100_scenarioC :
    Double.le (Double.fin 101) (Double.fin 100) = false ∧
    (¬ ∃ r ∈ scenarioDb.records, r.fullName = queryKey (lit "JON") (lit "SMITH") ∧
      r.fullAddress = queryKey (lit "100") (lit "MAIN ST")) ∧
    findMatches indelRatio scenarioDb (lit "JON") (lit "SMITH") (lit "100") (lit "MAIN ST")
      (Double.fin 101) = some [] ∧
    findMatches equalityRatio scenarioDb (lit "JON") (lit "SMITH") (lit "100") (lit "MAIN ST")
      (Double.fin 101) = some [] :=
  ⟨by decide, by decide, by decide,
    findMatches_threshold_above_100 equalityRatio equalityRatio_le_100 scenarioDb
      (Reachable.load scenarioFS (lit "voters.csv") VoterDatabase.empty Reachable.init)
      (lit "JON") (lit "SMITH") (lit "100") (lit "MAIN ST") (Double.fin 101) (by decide)
      (by decide)⟩

/-- C13 (query before load). On a default-constructed database (no record, two
empty maps) `findMatches` returns the empty list, without reading any record,
for every scorer, every query and every threshold, thresholds `<= 0`
included. -/
theorem findMatches_before_load (ratio : Scorer)
    (firstName lastName streetNumber streetName : CString) (threshold : Double) :
    findMatches ratio VoterDatabase.empty firstName lastName streetNumber streetName threshold
      = some [] := by
  simp [findMatches, findExactMatches, findFuzzyMatches, VoterDatabase.empty, Index.find]

/-- An instance of C13: a query at threshold `-1` on the empty database. -/
theorem findMatches_before_load_example :
    findMatches indelRatio VoterDatabase.empty (lit "JOHN") (lit "SMITH") (lit "100")
      (lit "MAIN ST") (Double.fin (-1)) = some [] :=
  findMatches_before_load indelRatio (lit "JOHN") (lit "SMITH") (lit "100") (lit "MAIN ST")
    (Double.fin (-1))

/-- C14 (`ADDRESS_ONLY` is never emitted). In every reachable state the three
query functions return, and no result of `findMatches`, `findExactMatches` or
`findFuzzyMatches` has type `ADDRESS_ONLY`: results of `findExactMatches` are
`EXACT`, results of `findFuzzyMatches` are `FUZZY_NAME` or `FUZZY_ADDRESS`, and
results of `findMatches` are one of these three. -/
theorem address_only_never_emitted (ratio : Scorer) (db : VoterDatabase) (hdb : Reachable db)
    (firstName lastName streetNumber streetName fullName fullAddress : CString)
    (threshold : Double) :
    (∃ rs, findMatches ratio db firstName lastName streetNumber streetName threshold = some rs ∧
      ∀ res ∈ rs, res.type ≠ MatchType.ADDRESS_ONLY ∧
        (res.type = MatchType.EXACT ∨ res.type = MatchType.FUZZY_NAME ∨
          res.type = MatchType.FUZZY_ADDRESS)) ∧
    (∃ ex, findExactMatches db fullName fullAddress = some ex ∧
      ∀ res ∈ ex, res.type ≠ MatchType.ADDRESS_ONLY ∧ res.type = MatchType.EXACT) ∧
    (∀ res ∈ findFuzzyMatches ratio db fullName fullAddress threshold,
      res.type ≠ MatchType.ADDRESS_ONLY ∧
        (res.type = MatchType.FUZZY_NAME ∨ res.type = MatchType.FUZZY_ADDRESS)) := by
  have hfuzzy : ∀ (a b : CString) (res : SearchResult),
      res ∈ db.records.flatMap (fuzzyCandidates ratio a b threshold) →
      res.type ≠ MatchType.ADDRESS_ONLY ∧
        (res.type = MatchType.FUZZY_NAME ∨ res.type = MatchType.FUZZY_ADDRESS) := by
    intro a b res hres
    obtain ⟨record, _, hcand⟩ := List.mem_flatMap.mp hres
    rcases mem_fuzzyCandidates hcand with h | h
    · rw [h.1]
      exact ⟨by decide, Or.inl rfl⟩
    · rw [h.1]
      exact ⟨by decide, Or.inr rfl⟩
  refine ⟨?_, ?_, ?_⟩
  · obtain ⟨ex, hex, hall⟩ := findExactMatches_of_consistent hdb.consistent
      (queryKey firstName lastName) (queryKey streetNumber streetName)
    rw [findMatches_of_exact ratio db _ _ _ _ threshold ex hex]
    refine ⟨_, rfl, ?_⟩
    intro res hres
    by_cases hnil : ex = []
    · rw [if_pos hnil] at hres
      obtain ⟨h1, h2⟩ := hfuzzy _ _ res hres
      exact ⟨h1, Or.inr h2⟩
    · rw [if_neg hnil] at hres
      rw [(exactFor_type_of_forall2 hall res hres).1]
      exact ⟨by decide, Or.inl rfl⟩
  · obtain ⟨ex, hex, hall⟩ := findExactMatches_of_consistent hdb.consistent fullName fullAddress
    refine ⟨ex, hex, ?_⟩
    intro res hres
    rw [(exactFor_type_of_forall2 hall res hres).1]
    exact ⟨by decide, rfl⟩
  · rw [findFuzzyMatches_eq_flatMap]
    exact hfuzzy _ _

/-- The theorem of C14 on the scenario state, for the query of scenario B. -/
theorem address_only_never_emitted_scenario :
    (∃ rs, findMatches indelRatio scenarioDb (lit "JON") (lit "SMITH") (lit "100")
        (lit "MAIN ST") (Double.fin 80) = some rs ∧
      ∀ res ∈ rs, res.type ≠ MatchType.ADDRESS_ONLY ∧
        (res.type = MatchType.EXACT ∨ res.type = MatchType.FUZZY_NAME ∨
          res.type = MatchType.FUZZY_ADDRESS)) ∧
    (∃ ex, findExactMatches scenarioDb (lit "JOHN SMITH") (lit "100 MAIN ST") = some ex ∧
      ∀ res ∈ ex, res.type ≠ MatchType.ADDRESS_ONLY ∧ res.type = MatchType.EXACT) ∧
    (∀ res ∈ findFuzzyMatches indelRatio scenarioDb (lit "JOHN SMITH") (lit "100 MAIN ST")
        (Double.fin 80),
      res.type ≠ MatchType.ADDRESS_ONLY ∧
        (res.type = MatchType.FUZZY_NAME ∨ res.type = MatchType.FUZZY_ADDRESS)) :=
  address_only_never_emitted indelRatio scenarioDb
    (Reachable.load scenarioFS (lit "voters.csv") VoterDatabase.empty Reachable.init)
    (lit "JON") (lit "SMITH") (lit "100") (lit "MAIN ST") (lit "JOHN SMITH")
    (lit "100 MAIN ST") (Double.fin 80)

/-- C15 (index membership invariant). In every reachable state, for each of
the two maps: the keys are pairwise different (one bucket per key); the index
`i` of every stored record is in the bucket kept under that record's own
`fullName` (respectively `fullAddress`); and an index found in the bucket of a
key is the index of a stored record whose `fullName` (respectively
`fullAddress`) is that key. So every record index is in exactly one bucket of
each map, the one of its own key, and no bucket holds anything else. -/
theorem index_membership_invariant (db : VoterDatabase) (hdb : Reachable db) :
    ((Index.keys db.nameIndex).Nodup ∧
      (∀ i r, db.records[i]? = some r → ∃ v, (r.fullName, v) ∈ db.nameIndex ∧ i ∈ v) ∧
      (∀ key v i, (key, v) ∈ db.nameIndex → i ∈ v →
        ∃ r, db.records[i]? = some r ∧ r.fullName = key)) ∧
    ((Index.keys db.addressIndex).Nodup ∧
      (∀ i r, db.records[i]? = some r → ∃ w, (r.fullAddress, w) ∈ db.addressIndex ∧ i ∈ w) ∧
      (∀ key w i, (key, w) ∈ db.addressIndex → i ∈ w →
        ∃ r, db.records[i]? = some r ∧ r.fullAddress = key)) := by
  have hc := hdb.consistent
  have hk := hdb.nodup_keys
  refine ⟨⟨hk.1, ?_, ?_⟩, ⟨hk.2, ?_, ?_⟩⟩
  · intro i r hr
    obtain ⟨v, hv, hi⟩ := bucketOf_of_record VoterRecord.fullName db.records i r hr
    rw [← hc.name] at hv
    exact ⟨v, (Index.find_eq_some_iff_mem _ hk.1 _ _).mp hv, hi⟩
  · intro key v i hmem hi
    rw [hdb.name_bucket key v hmem] at hi
    exact (mem_keyIds _ _ _ _).mp hi
  · intro i r hr
    obtain ⟨w, hw, hi⟩ := bucketOf_of_record VoterRecord.fullAddress db.records i r hr
    rw [← hc.address] at hw
    exact ⟨w, (Index.find_eq_some_iff_mem _ hk.2 _ _).mp hw, hi⟩
  · intro key w i hmem hi
    rw [hdb.address_bucket key w hmem] at hi
    exact (mem_keyIds _ _ _ _).mp hi

/-- The two maps of the scenario state, and the theorem of C15 on it. -/
theorem index_membership_invariant_scenario :
    scenarioDb.nameIndex = [(lit "JOHN SMITH", [0]), (lit "JANE DOE", [1])] ∧
    scenarioDb.addressIndex = [(lit "100 MAIN ST", [0]), (lit "200 OAK AVE", [1])] ∧
    (((Index.keys scenarioDb.nameIndex).Nodup ∧
      (∀ i r, scenarioDb.records[i]? = some r →
        ∃ v, (r.fullName, v) ∈ scenarioDb.nameIndex ∧ i ∈ v) ∧
      (∀ key v i, (key, v) ∈ scenarioDb.nameIndex → i ∈ v →
        ∃ r, scenarioDb.records[i]? = some r ∧ r.fullName = key)) ∧
    ((Index.keys scenarioDb.addressIndex).Nodup ∧
      (∀ i r, scenarioDb.records[i]? = some r →
        ∃ w, (r.fullAddress, w) ∈ scenarioDb.addressIndex ∧ i ∈ w) ∧
      (∀ key w i, (key, w) ∈ scenarioDb.addressIndex → i ∈ w →
        ∃ r, scenarioDb.records[i]? = some r ∧ r.fullAddress = key))) :=
  ⟨by decide, by decide,
    index_membership_invariant scenarioDb
      (Reachable.load scenarioFS (lit "voters.csv") VoterDatabase.empty Reachable.init)⟩

/-- C16 (bucket order invariant). In every reachable state every bucket of the
name index and of the address index is strictly ascending, hence without
duplicates; and for a bucket `v` of the name index and a bucket `w` of the
address index `set_intersection v w` is strictly ascending and holds exactly
the indices that are in both. -/
theorem bucket_order_invariant (db : VoterDatabase) (hdb : Reachable db) :
    (∀ key v, (key, v) ∈ db.nameIndex → v.Pairwise (· < ·) ∧ v.Nodup) ∧
    (∀ key w, (key, w) ∈ db.addressIndex → w.Pairwise (· < ·) ∧ w.Nodup) ∧
    (∀ key v key' w, (key, v) ∈ db.nameIndex → (key', w) ∈ db.addressIndex →
      (set_intersection v w).Pairwise (· < ·) ∧
      ∀ i, i ∈ set_intersection v w ↔ i ∈ v ∧ i ∈ w) := by
  have hname : ∀ key v, (key, v) ∈ db.nameIndex → v.Pairwise (· < ·) := by
    intro key v hmem
    rw [hdb.name_bucket key v hmem]
    exact keyIds_pairwise _ _ _
  have haddr : ∀ key w, (key, w) ∈ db.addressIndex → w.Pairwise (· < ·) := by
    intro key w hmem
    rw [hdb.address_bucket key w hmem]
    exact keyIds_pairwise _ _ _
  have hnodup : ∀ l : List Nat, l.Pairwise (· < ·) → l.Nodup := by
    intro l hl
    exact hl.imp (fun h => Nat.ne_of_lt h)
  refine ⟨fun key v hmem => ⟨hname key v hmem, hnodup v (hname key v hmem)⟩,
    fun key w hmem => ⟨haddr key w hmem, hnodup w (haddr key w hmem)⟩, ?_⟩
  intro key v key' w hv hw
  rw [set_intersection_eq_filter v w (hname key v hv) (haddr key' w hw)]
  refine ⟨List.Pairwise.filter _ (hname key v hv), ?_⟩
  intro i
  rw [List.mem_filter, decide_eq_true_eq]

/-- A file in which two rows share a name and an address: the shared buckets
are `[0, 2]`; and the theorem of C16 on the scenario state. -/
theorem bucket_order_invariant_scenario :
    (loadVoterData (fun _ => some (lit "h\n1,D,a,b,1,x\n2,R,c,d,2,y\n3,D,A,B,1,X\n")) []
      VoterDatabase.empty).2.nameIndex = [(lit "A B", [0, 2]), (lit "C D", [1])] ∧
    ((∀ key v, (key, v) ∈ scenarioDb.nameIndex → v.Pairwise (· < ·) ∧ v.Nodup) ∧
    (∀ key w, (key, w) ∈ scenarioDb.addressIndex → w.Pairwise (· < ·) ∧ w.Nodup) ∧
    (∀ key v key' w, (key, v) ∈ scenarioDb.nameIndex → (key', w) ∈ scenarioDb.addressIndex →
      (set_intersection v w).Pairwise (· < ·) ∧
      ∀ i, i ∈ set_intersection v w ↔ i ∈ v ∧ i ∈ w)) :=
  ⟨by decide,
    bucket_order_invariant scenarioDb
      (Reachable.load scenarioFS (lit "voters.csv") VoterDatabase.empty Reachable.init)⟩

/-- C17 (case-insensitive queries). For every state, scorer, threshold and
query fields, `findMatches` returns the same result as for the normalised
fields; hence two queries whose fields have the same normal forms (they differ
in ASCII letter case only) return the same result. -/
theorem findMatches_case_insensitive (ratio : Scorer) (db : VoterDatabase)
    (f l n s : CString) (threshold : Double) :
    findMatches ratio db f l n s threshold =
      findMatches ratio db (normalizeString f) (normalizeString l) (normalizeString n)
        (normalizeString s) threshold ∧
    ∀ f' l' n' s' : CString,
      normalizeString f = normalizeString f' → normalizeString l = normalizeString l' →
      normalizeString n = normalizeString n' → normalizeString s = normalizeString s' →
      findMatches ratio db f l n s threshold = findMatches ratio db f' l' n' s' threshold := by
  constructor
  · exact findMatches_congr_keys ratio db _ _ _ _ _ _ _ _ threshold
      (queryKey_normalize f l).symm (queryKey_normalize n s).symm
  · intro f' l' n' s' hf hl hn hs
    apply findMatches_congr_keys
    · unfold queryKey
      rw [hf, hl]
    · unfold queryKey
      rw [hn, hs]

/-- An instance of C17 on the scenario state: the query in lower case gets the
`EXACT` result of record 0, as the query in upper case does. -/
theorem findMatches_case_insensitive_example :
    findMatches indelRatio scenarioDb (lit "john") (lit "Smith") (lit "100") (lit "main st")
      (Double.fin 90) = some [SearchResult.mk MatchType.EXACT (Double.fin 100) johnSmith] ∧
    normalizeString (lit "john") = lit "JOHN" ∧
    findMatches indelRatio scenarioDb (lit "john") (lit "Smith") (lit "100") (lit "main st")
      (Double.fin 90) =
      findMatches indelRatio scenarioDb (normalizeString (lit "john"))
        (normalizeString (lit "Smith")) (normalizeString (lit "100"))
        (normalizeString (lit "main st")) (Double.fin 90) :=
  ⟨by decide, by decide,
    (findMatches_case_insensitive indelRatio scenarioDb (lit "john") (lit "Smith") (lit "100")
      (lit "main st") (Double.fin 90)).1⟩

/-- C18 (field-boundary blindness). Two queries whose joined names
`normalize(first) + " " + normalize(last)` are equal and whose joined
addresses are equal get the same result from `findMatches`, in every state and
for every scorer and threshold, whatever their single fields are. And the
record ingested with first name `Mary Ann` and last name `Lee` (stored as
`MARY ANN`, `LEE`) is the one result, of type `EXACT` with score `100`, of the
query with first name `MARY` and last name `ANN LEE` at the same address, for
every scorer and threshold. -/
theorem findMatches_field_boundary_blind :
    (∀ (ratio : Scorer) (db : VoterDatabase) (f l n s f' l' n' s' : CString)
      (threshold : Double),
      normalizeString f ++ lit " " ++ normalizeString l =
        normalizeString f' ++ lit " " ++ normalizeString l' →
      normalizeString n ++ lit " " ++ normalizeString s =
        normalizeString n' ++ lit " " ++ normalizeString s' →
      findMatches ratio db f l n s threshold = findMatches ratio db f' l' n' s' threshold) ∧
    (maryDb.records = [maryAnnLee] ∧
      maryAnnLee.firstName = lit "MARY ANN" ∧ maryAnnLee.lastName = lit "LEE" ∧
      ∀ (ratio : Scorer) (threshold : Double),
        findMatches ratio maryDb (lit "MARY") (lit "ANN LEE") (lit "12") (lit "OAK ST")
          threshold = some [SearchResult.mk MatchType.EXACT (Double.fin 100) maryAnnLee]) := by
  refine ⟨?_, by decide, by decide, by decide, ?_⟩
  · intro ratio db f l n s f' l' n' s' threshold hname haddr
    exact findMatches_congr_keys ratio db f l n s f' l' n' s' threshold hname haddr
  · intro ratio threshold
    have hex : findExactMatches maryDb (queryKey (lit "MARY") (lit "ANN LEE"))
        (queryKey (lit "12") (lit "OAK ST")) =
        some [SearchResult.mk MatchType.EXACT (Double.fin 100) maryAnnLee] := by decide
    rw [findMatches_of_exact ratio maryDb _ _ _ _ threshold _ hex, if_neg (by simp)]

/-- The first part of C18 at the two queries of its example: the query
`("MARY", "ANN LEE")` and the query `("Mary Ann", "Lee")` have the same joined
name, and get the same result. -/
theorem findMatches_field_boundary_blind_example :
    normalizeString (lit "MARY") ++ lit " " ++ normalizeString (lit "ANN LEE") =
      normalizeString (lit "Mary Ann") ++ lit " " ++ normalizeString (lit "Lee") ∧
    findMatches indelRatio maryDb (lit "MARY") (lit "ANN LEE") (lit "12") (lit "OAK ST")
      (Double.fin 100) =
      findMatches indelRatio maryDb (lit "Mary Ann") (lit "Lee") (lit "12") (lit "Oak St")
        (Double.fin 100) :=
  ⟨by decide,
    findMatches_field_boundary_blind.1 indelRatio maryDb (lit "MARY") (lit "ANN LEE") (lit "12")
      (lit "OAK ST") (lit "Mary Ann") (lit "Lee") (lit "12") (lit "Oak St") (Double.fin 100)
      (by decide) (by decide)⟩

/-- C19 (record lookup never goes out of bounds). In every reachable state
every index in a bucket of the name index or of the address index is smaller
than the number of records; so for every pair of keys every index of `matches`
is smaller than the number of records and `findExactMatches` returns a list
(the access `records[idx]` is never out of range). -/
theorem record_lookup_in_bounds (db : VoterDatabase) (hdb : Reachable db) :
    (∀ key v i, (key, v) ∈ db.nameIndex → i ∈ v → i < db.records.length) ∧
    (∀ key w i, (key, w) ∈ db.addressIndex → i ∈ w → i < db.records.length) ∧
    ∀ fullName fullAddress : CString,
      (∀ i ∈ exactMatchIds db fullName fullAddress, i < db.records.length) ∧
      ∃ rs, findExactMatches db fullName fullAddress = some rs := by
  have hlt : ∀ (proj : VoterRecord → CString) (key : CString) (i : Nat),
      i ∈ keyIds proj key db.records → i < db.records.length := by
    intro proj key i hi
    unfold keyIds at hi
    exact List.mem_range.mp (List.mem_filter.mp hi).1
  refine ⟨?_, ?_, ?_⟩
  · intro key v i hmem hi
    rw [hdb.name_bucket key v hmem] at hi
    exact hlt _ _ _ hi
  · intro key w i hmem hi
    rw [hdb.address_bucket key w hmem] at hi
    exact hlt _ _ _ hi
  · intro fullName fullAddress
    constructor
    · intro i hi
      obtain ⟨r, hr, _⟩ := ((exactMatchIds_of_consistent hdb.consistent _ _).2 i).mp hi
      by_contra hcon
      rw [List.getElem?_eq_none (by omega)] at hr
      cases hr
    · obtain ⟨rs, hrs, _⟩ := findExactMatches_of_consistent hdb.consistent fullName fullAddress
      exact ⟨rs, hrs⟩

/-- A state that no load produces, whose name bucket holds the index 5 of no
record, makes `findExactMatches` read out of range; and the theorem of C19 on
the scenario state. -/
theorem record_lookup_in_bounds_scenario :
    findExactMatches (VoterDatabase.mk [] [(lit "A B", [5])] [(lit "1 X", [5])])
      (lit "A B") (lit "1 X") = none ∧
    ((∀ key v i, (key, v) ∈ scenarioDb.nameIndex → i ∈ v → i < scenarioDb.records.length) ∧
    (∀ key w i, (key, w) ∈ scenarioDb.addressIndex → i ∈ w → i < scenarioDb.records.length) ∧
    ∀ fullName fullAddress : CString,
      (∀ i ∈ exactMatchIds scenarioDb fullName fullAddress, i < scenarioDb.records.length) ∧
      ∃ rs, findExactMatches scenarioDb fullName fullAddress = some rs) :=
  ⟨by decide,
    record_lookup_in_bounds scenarioDb
      (Reachable.load scenarioFS (lit "voters.csv") VoterDatabase.empty Reachable.init)⟩

/-- C20 (a failed load is atomic). When the file cannot be opened,
`loadVoterData` returns `false` and the state (store and both maps) is the one
before the call, so every query gets the answer it got before; when the file
can be opened, `loadVoterData` returns `true`, also when the file holds no row
that is ingested. -/
theorem loadVoterData_open_failure_atomic (fs : FileSystem) (filepath : CString)
    (db : VoterDatabase) :
    (fs filepath = none →
      loadVoterData fs filepath db = (false, db) ∧
      ∀ (ratio : Scorer) (f l n s : CString) (threshold : Double),
        findMatches ratio (loadVoterData fs filepath db).2 f l n s threshold =
          findMatches ratio db f l n s threshold) ∧
    (∀ content, fs filepath = some content → (loadVoterData fs filepath db).1 = true) := by
  constructor
  · intro hnone
    have heq : loadVoterData fs filepath db = (false, db) := by
      unfold loadVoterData
      rw [hnone]
    refine ⟨heq, ?_⟩
    intro ratio f l n s threshold
    rw [heq]
  · intro content hopen
    rw [loadVoterData_of_open fs filepath db content hopen]

/-- A load of a missing file over the scenario state returns `false` and keeps
the state, and the query of scenario A is answered as before; a load of a file
with a header line only returns `true` and leaves no record. -/
theorem loadVoterData_open_failure_atomic_scenario :
    scenarioFS (lit "missing.csv") = none ∧
    loadVoterData scenarioFS (lit "missing.csv") scenarioDb = (false, scenarioDb) ∧
    findMatches indelRatio (loadVoterData scenarioFS (lit "missing.csv") scenarioDb).2
      (lit "JOHN") (lit "SMITH") (lit "100") (lit "Main St") (Double.fin 90) =
      some [SearchResult.mk MatchType.EXACT (Double.fin 100) johnSmith] ∧
    loadVoterData headerOnlyFS (lit "voters.csv") scenarioDb = (true, VoterDatabase.empty) ∧
    (loadVoterData headerOnlyFS (lit "voters.csv") scenarioDb).1 = true :=
  ⟨by decide, by decide, by decide, by decide,
    (loadVoterData_open_failure_atomic headerOnlyFS (lit "voters.csv") scenarioDb).2
      (lit "vsn,party,first,last,number,street\n") (by decide)⟩

end VoterMatcher
